import Mathlib

set_option maxRecDepth 4000

/-!
Shallow embedding of the hand-built cipher core of the top20-cipher-sandbox
repository: the TEA and XTEA Feistel block engines (src/crypto/engines/tea.ts,
src/crypto/engines/xtea.ts), the Salsa20 and ChaCha20 ARX stream engines
(src/crypto/engines/salsa20.ts and the ChaCha20 part of
src/crypto/engines/twofish.js), and the cipher registry.

Machine words are modelled as natural numbers reduced modulo 2^32, matching
the JavaScript coercions: every 32-bit operation in the source ends in a
`>>> 0` or feeds into a bitwise operator, so all intermediate values are
congruent mod 2^32 to the uint32 values the source computes.  Byte sequences
are lists of naturals below 256.  CryptoJS WordArray values (words are
big-endian groups of four bytes, plus a significant-byte count) are modelled
by explicit big-endian byte/word conversion functions.  Hex strings crossing
the public interface are modelled by the byte lists they encode, and UTF-8
text by its byte sequence.
-/
namespace CipherSandbox

/-- Modulus of 32-bit JavaScript unsigned integers, 2 ^ 32. -/
def W : Nat := 4294967296

/-- JavaScript 32-bit addition followed by a zero-fill right shift: sum mod 2^32. -/
def add32 (a b : Nat) : Nat := (a + b) % W

/-- JavaScript 32-bit subtraction followed by a zero-fill right shift,
for an unsigned minuend below 2^32: difference mod 2^32. -/
def sub32 (a b : Nat) : Nat := (a + W - b % W) % W

/-- JavaScript 32-bit bitwise xor on uint32 representatives. -/
def xor32 (a b : Nat) : Nat := (a % W) ^^^ (b % W)

/-- JavaScript left shift of a 32-bit value by a literal amount. -/
def shl32 (a n : Nat) : Nat := (a % W) * 2 ^ n % W

/-- JavaScript zero-fill right shift of a 32-bit value. -/
def shr32 (a n : Nat) : Nat := (a % W) / 2 ^ n

/-- JavaScript 32-bit multiplication result coerced by a zero-fill right shift. -/
def mul32 (a b : Nat) : Nat := a * b % W

/-- Left rotation of a 32-bit word, as written in both ARX engines:
(value << positions) | (value >>> (32 - positions)), coerced to uint32. -/
def rotl32 (a n : Nat) : Nat := (shl32 a n ||| shr32 a (32 - n)) % W

/-- Big-endian packing of up to four bytes into one CryptoJS word:
byte i contributes at shift 24 - 8*i, missing bytes are zero. -/
def wordOfBytes (l : List Nat) : Nat :=
  l.getD 0 0 * 16777216 + l.getD 1 0 * 65536 + l.getD 2 0 * 256 + l.getD 3 0

/-- CryptoJS parse of a byte sequence into big-endian 32-bit words
(Utf8.parse / Hex.parse word layout): groups of four bytes, the last group
zero-padded on the right. -/
def bytesToWords : List Nat → List Nat
  | [] => []
  | [b0] => [wordOfBytes [b0]]
  | [b0, b1] => [wordOfBytes [b0, b1]]
  | [b0, b1, b2] => [wordOfBytes [b0, b1, b2]]
  | b0 :: b1 :: b2 :: b3 :: t => wordOfBytes [b0, b1, b2, b3] :: bytesToWords t

/-- Big-endian byte serialization of one 32-bit word. -/
def wordToBytes (w : Nat) : List Nat :=
  [w / 16777216 % 256, w / 65536 % 256, w / 256 % 256, w % 256]

/-- CryptoJS stringification of a WordArray with a significant-byte count:
byte i is bits 24-8*(i mod 4) of word (i / 4), with absent words read as 0.
Defined by consuming four bytes per word. -/
def wordsToBytes : Nat → List Nat → List Nat
  | 0, _ => []
  | n + 1, [] => List.replicate (n + 1) 0
  | n + 1, w :: t =>
    if n + 1 ≤ 4 then List.take (n + 1) (wordToBytes w)
    else wordToBytes w ++ wordsToBytes (n - 3) t

/-- Bytes of a byte sequence are below 256. -/
def BytesOk (l : List Nat) : Prop := ∀ b ∈ l, b < 256

instance (l : List Nat) : Decidable (BytesOk l) :=
  inferInstanceAs (Decidable (∀ b ∈ l, b < 256))

/-! TEA Feistel core, from TeaEngine in src/crypto/engines/tea.ts.
A block is the pair of 32-bit words (v0, v1); the key is the four words
(k0, k1, k3, k3) of the parsed 16-byte key. -/
/-- Round constant TEA_DELTA = 0x9e3779b9. -/
def teaDelta : Nat := 2654435769

/-- Feistel mixing term of TEA: ((x << 4) + ka) ^ (x + sum) ^ ((x >>> 5) + kb). -/
def teaMix (x s ka kb : Nat) : Nat :=
  xor32 (xor32 (add32 (shl32 x 4) ka) (add32 x s)) (add32 (shr32 x 5) kb)

/-- One encryption round body of TeaEngine.encryptBlock at sum value s:
v0 += mix(v1, k0, k1); v1 += mix(v0, k2, k3). -/
def teaEncRound (k0 k1 k2 k3 s : Nat) (v : Nat × Nat) : Nat × Nat :=
  let v0 := add32 v.1 (teaMix v.2 s k0 k1)
  let v1 := add32 v.2 (teaMix v0 s k2 k3)
  (v0, v1)

/-- One decryption round body of TeaEngine.decryptBlock at sum value s:
v1 -= mix(v0, k2, k3); v0 -= mix(v1, k0, k1). -/
def teaDecRound (k0 k1 k2 k3 s : Nat) (v : Nat × Nat) : Nat × Nat :=
  let v1 := sub32 v.2 (teaMix v.1 s k2 k3)
  let v0 := sub32 v.1 (teaMix v1 s k0 k1)
  (v0, v1)

/-- Encryption round loop: sum is incremented by delta at the start of
each round and the round body runs at the incremented sum. -/
def teaEncRounds (k0 k1 k2 k3 : Nat) : Nat → Nat → Nat × Nat → Nat × Nat
  | 0, _, v => v
  | n + 1, s, v =>
    let s1 := add32 s teaDelta
    teaEncRounds k0 k1 k2 k3 n s1 (teaEncRound k0 k1 k2 k3 s1 v)

/-- Decryption round loop: the round body runs at the current sum, which is
then decremented by delta. -/
def teaDecRounds (k0 k1 k2 k3 : Nat) : Nat → Nat → Nat × Nat → Nat × Nat
  | 0, _, v => v
  | n + 1, s, v =>
    teaDecRounds k0 k1 k2 k3 n (sub32 s teaDelta) (teaDecRound k0 k1 k2 k3 s v)

/-- TeaEngine.encryptBlock: 32 rounds, sum starting at 0. -/
def teaEncryptBlock (k0 k1 k2 k3 : Nat) (v : Nat × Nat) : Nat × Nat :=
  teaEncRounds k0 k1 k2 k3 32 0 v

/-- TeaEngine.decryptBlock: 32 rounds, sum starting at (delta * 32) >>> 0. -/
def teaDecryptBlock (k0 k1 k2 k3 : Nat) (v : Nat × Nat) : Nat × Nat :=
  teaDecRounds k0 k1 k2 k3 32 (mul32 teaDelta 32) v

/-- Predicate for a block whose words are reduced mod 2^32. -/
def BlockOk (v : Nat × Nat) : Prop := v.1 < W ∧ v.2 < W

/-! XTEA Feistel core, from XteaEngine in src/crypto/engines/xtea.ts.
The round bodies are transcribed with JavaScript operator precedence, where
binary + binds tighter than binary ^, so that for example
v0 = (v0 + (((v1 << 4) ^ (v1 >>> 5)) + v1) ^ (sum + keyArray[sum & 3])) >>> 0
computes ((v0 + a) ^ b) >>> 0 and not (v0 + (a ^ b)) >>> 0. -/
/-- Round constant XTEA_DELTA = 0x9e3779b9. -/
def xteaDelta : Nat := 2654435769

/-- Mixing term ((x << 4) ^ (x >>> 5)) + x of the XTEA round. -/
def xteaMix (x : Nat) : Nat := add32 (xor32 (shl32 x 4) (shr32 x 5)) x

/-- Encryption round loop of XteaEngine.encryptBlock; k is keyArray. -/
def xteaEncRounds (k : List Nat) : Nat → Nat → Nat × Nat → Nat × Nat
  | 0, _, v => v
  | n + 1, s, v =>
    let v0 := xor32 (add32 v.1 (xteaMix v.2)) (add32 s (k.getD (s % 4) 0))
    let s1 := add32 s xteaDelta
    let v1 := xor32 (add32 v.2 (xteaMix v0)) (add32 s1 (k.getD (s1 / 2048 % 4) 0))
    xteaEncRounds k n s1 (v0, v1)

/-- Decryption round loop of XteaEngine.decryptBlock. -/
def xteaDecRounds (k : List Nat) : Nat → Nat → Nat × Nat → Nat × Nat
  | 0, _, v => v
  | n + 1, s, v =>
    let v1 := xor32 (sub32 v.2 (xteaMix v.1)) (add32 s (k.getD (s / 2048 % 4) 0))
    let s1 := sub32 s xteaDelta
    let v0 := xor32 (sub32 v.1 (xteaMix v1)) (add32 s1 (k.getD (s1 % 4) 0))
    xteaDecRounds k n s1 (v0, v1)

/-- XteaEngine.encryptBlock: 32 rounds, sum starting at 0. -/
def xteaEncryptBlock (k : List Nat) (v : Nat × Nat) : Nat × Nat :=
  xteaEncRounds k 32 0 v

/-- XteaEngine.decryptBlock: 32 rounds, sum starting at (delta * 32) >>> 0. -/
def xteaDecryptBlock (k : List Nat) (v : Nat × Nat) : Nat × Nat :=
  xteaDecRounds k 32 (mul32 xteaDelta 32) v

/-! Block-mode machinery shared by TeaEngine and XteaEngine: splitIntoBlocks,
xorBlocks, concatBlocks, and the ECB and CBC drivers.  A block is a pair of
words with significant-byte count 8. -/
/-- Grouping of a word list into 2-word blocks, zero-padding a short
final group, as in the loop of splitIntoBlocks with blockSize 8. -/
def chunkPairs : List Nat → List (Nat × Nat)
  | [] => []
  | [a] => [(a, 0)]
  | a :: b :: t => (a, b) :: chunkPairs t

/-- TeaEngine/XteaEngine.splitIntoBlocks: empty input yields the single
all-zero block. -/
def splitIntoBlocks (ws : List Nat) : List (Nat × Nat) :=
  if ws = [] then [(0, 0)] else chunkPairs ws

/-- Word-wise xor of two 8-byte blocks (xorBlocks). -/
def xorPair (a b : Nat × Nat) : Nat × Nat := (xor32 a.1 b.1, xor32 a.2 b.2)

/-- Concatenation of 8-byte blocks back into a word list (concatBlocks). -/
def pairsToWords : List (Nat × Nat) → List Nat
  | [] => []
  | (a, b) :: t => a :: b :: pairsToWords t

/-- CBC encryption loop over blocks: xor with the previous ciphertext
block (IV first), encrypt, and chain the result. -/
def teaEncryptCBCBlocks (k0 k1 k2 k3 : Nat) (prev : Nat × Nat) : List (Nat × Nat) → List (Nat × Nat)
  | [] => []
  | b :: t =>
    let e := teaEncryptBlock k0 k1 k2 k3 (xorPair b prev)
    e :: teaEncryptCBCBlocks k0 k1 k2 k3 e t

/-- CBC decryption loop over blocks: decrypt, xor with the previous
ciphertext block (IV first), and chain the undecrypted input block. -/
def teaDecryptCBCBlocks (k0 k1 k2 k3 : Nat) (prev : Nat × Nat) : List (Nat × Nat) → List (Nat × Nat)
  | [] => []
  | b :: t =>
    let d := xorPair (teaDecryptBlock k0 k1 k2 k3 b) prev
    d :: teaDecryptCBCBlocks k0 k1 k2 k3 b t

/-- CBC encryption loop of XteaEngine (same wrapper, XTEA block function). -/
def xteaEncryptCBCBlocks (k : List Nat) (prev : Nat × Nat) : List (Nat × Nat) → List (Nat × Nat)
  | [] => []
  | b :: t =>
    let e := xteaEncryptBlock k (xorPair b prev)
    e :: xteaEncryptCBCBlocks k e t

/-- CBC decryption loop of XteaEngine. -/
def xteaDecryptCBCBlocks (k : List Nat) (prev : Nat × Nat) : List (Nat × Nat) → List (Nat × Nat)
  | [] => []
  | b :: t =>
    let d := xorPair (xteaDecryptBlock k b) prev
    d :: xteaDecryptCBCBlocks k b t

/-! Common plugin-contract value types (src/types/crypto.ts), with byte
sequences in place of hex and UTF-8 strings. -/
/-- Metadata echoed by a successful operation. -/
structure OpMetadata where
  keyLength : Option Nat := none
  ivLength : Option Nat := none
  nonceLength : Option Nat := none
  mode : Option String := none
  variant : Option String := none
deriving DecidableEq

/-- Structured operation result: success flag, optional payload, optional
error message, optional metadata. -/
structure CryptoOperation where
  success : Bool
  result : Option (List Nat) := none
  error : Option String := none
  metadata : Option OpMetadata := none
deriving DecidableEq

/-- Parameters of the public encrypt operation. -/
structure EncryptionParams where
  plaintext : List Nat
  key : List Nat
  iv : Option (List Nat) := none
  nonce : Option (List Nat) := none
  mode : Option String := none
  variant : Option String := none

/-- Parameters of the public decrypt operation. -/
structure DecryptionParams where
  ciphertext : List Nat
  key : List Nat
  iv : Option (List Nat) := none
  nonce : Option (List Nat) := none
  mode : Option String := none
  variant : Option String := none

/-- TeaEngine.encrypt.  The source computes iv ? parse(iv) : random(8): an
absent IV and the empty IV string are both falsy, so both fall back to the
random IV, which is passed explicitly as freshIv. -/
def teaEncrypt (p : EncryptionParams) (freshIv : List Nat) : CryptoOperation :=
  if p.plaintext = [] ∨ p.key = [] then
    { success := false, error := some "Plaintext and key are required" }
  else if ¬ p.key.length = 16 then
    { success := false, error := some "Invalid TEA key. Must be exactly 16 bytes (128 bits)" }
  else
    let kw := bytesToWords p.key
    let k0 := kw.getD 0 0
    let k1 := kw.getD 1 0
    let k2 := kw.getD 2 0
    let k3 := kw.getD 3 0
    let ivBytes := if p.iv.getD [] = [] then freshIv else p.iv.getD []
    let mode := p.mode.getD "CBC"
    let variant := p.variant.getD "tea"
    let ptw := bytesToWords p.plaintext
    if mode = "ECB" then
      let out := (splitIntoBlocks ptw).map (teaEncryptBlock k0 k1 k2 k3)
      { success := true,
        result := some (wordsToBytes (8 * out.length) (pairsToWords out)),
        metadata := some { keyLength := some 128, mode := some mode, variant := some variant } }
    else if mode = "CBC" then
      let ivw := bytesToWords ivBytes
      let out := teaEncryptCBCBlocks k0 k1 k2 k3 (ivw.getD 0 0, ivw.getD 1 0) (splitIntoBlocks ptw)
      { success := true,
        result := some (wordsToBytes (8 * out.length) (pairsToWords out)),
        metadata := some { keyLength := some 128, ivLength := some 8,
                           mode := some mode, variant := some variant } }
    else
      { success := false, error := some ("Mode " ++ mode ++ " not implemented for TEA") }

/-- TeaEngine.decrypt.  The source computes iv ? parse(iv) : undefined and in
CBC mode throws when that value is falsy, so an absent IV and the empty IV
string both fail with the IV-required message. -/
def teaDecrypt (p : DecryptionParams) : CryptoOperation :=
  if p.ciphertext = [] ∨ p.key = [] then
    { success := false, error := some "Ciphertext and key are required" }
  else if ¬ p.key.length = 16 then
    { success := false, error := some "Invalid TEA key. Must be exactly 16 bytes (128 bits)" }
  else
    let kw := bytesToWords p.key
    let k0 := kw.getD 0 0
    let k1 := kw.getD 1 0
    let k2 := kw.getD 2 0
    let k3 := kw.getD 3 0
    let mode := p.mode.getD "CBC"
    let variant := p.variant.getD "tea"
    let ctw := bytesToWords p.ciphertext
    if mode = "ECB" then
      let out := (splitIntoBlocks ctw).map (teaDecryptBlock k0 k1 k2 k3)
      { success := true,
        result := some (wordsToBytes (8 * out.length) (pairsToWords out)),
        metadata := some { keyLength := some 128, mode := some mode, variant := some variant } }
    else if mode = "CBC" then
      if p.iv.getD [] = [] then
        { success := false, error := some "IV is required for CBC mode" }
      else
        let ivw := bytesToWords (p.iv.getD [])
        let out := teaDecryptCBCBlocks k0 k1 k2 k3 (ivw.getD 0 0, ivw.getD 1 0) (splitIntoBlocks ctw)
        { success := true,
          result := some (wordsToBytes (8 * out.length) (pairsToWords out)),
          metadata := some { keyLength := some 128, ivLength := some 8,
                             mode := some mode, variant := some variant } }
    else
      { success := false, error := some ("Mode " ++ mode ++ " not implemented for TEA") }

/-- XteaEngine.encrypt.  Same iv ? parse(iv) : random(8) truthiness as
TeaEngine.encrypt: an absent or empty IV falls back to freshIv. -/
def xteaEncrypt (p : EncryptionParams) (freshIv : List Nat) : CryptoOperation :=
  if p.plaintext = [] ∨ p.key = [] then
    { success := false, error := some "Plaintext and key are required" }
  else if ¬ p.key.length = 16 then
    { success := false, error := some "Invalid XTEA key. Must be exactly 16 bytes (128 bits)" }
  else
    let kw := bytesToWords p.key
    let keyArr := [kw.getD 0 0, kw.getD 1 0, kw.getD 2 0, kw.getD 3 0]
    let ivBytes := if p.iv.getD [] = [] then freshIv else p.iv.getD []
    let mode := p.mode.getD "CBC"
    let variant := p.variant.getD "xtea"
    let ptw := bytesToWords p.plaintext
    if mode = "ECB" then
      let out := (splitIntoBlocks ptw).map (xteaEncryptBlock keyArr)
      { success := true,
        result := some (wordsToBytes (8 * out.length) (pairsToWords out)),
        metadata := some { keyLength := some 128, mode := some mode, variant := some variant } }
    else if mode = "CBC" then
      let ivw := bytesToWords ivBytes
      let out := xteaEncryptCBCBlocks keyArr (ivw.getD 0 0, ivw.getD 1 0) (splitIntoBlocks ptw)
      { success := true,
        result := some (wordsToBytes (8 * out.length) (pairsToWords out)),
        metadata := some { keyLength := some 128, ivLength := some 8,
                           mode := some mode, variant := some variant } }
    else
      { success := false, error := some ("Mode " ++ mode ++ " not implemented for XTEA") }

/-- XteaEngine.decrypt.  Same IV truthiness as TeaEngine.decrypt: an absent
or empty IV fails in CBC mode with the IV-required message. -/
def xteaDecrypt (p : DecryptionParams) : CryptoOperation :=
  if p.ciphertext = [] ∨ p.key = [] then
    { success := false, error := some "Ciphertext and key are required" }
  else if ¬ p.key.length = 16 then
    { success := false, error := some "Invalid XTEA key. Must be exactly 16 bytes (128 bits)" }
  else
    let kw := bytesToWords p.key
    let keyArr := [kw.getD 0 0, kw.getD 1 0, kw.getD 2 0, kw.getD 3 0]
    let mode := p.mode.getD "CBC"
    let variant := p.variant.getD "xtea"
    let ctw := bytesToWords p.ciphertext
    if mode = "ECB" then
      let out := (splitIntoBlocks ctw).map (xteaDecryptBlock keyArr)
      { success := true,
        result := some (wordsToBytes (8 * out.length) (pairsToWords out)),
        metadata := some { keyLength := some 128, mode := some mode, variant := some variant } }
    else if mode = "CBC" then
      if p.iv.getD [] = [] then
        { success := false, error := some "IV is required for CBC mode" }
      else
        let ivw := bytesToWords (p.iv.getD [])
        let out := xteaDecryptCBCBlocks keyArr (ivw.getD 0 0, ivw.getD 1 0) (splitIntoBlocks ctw)
        { success := true,
          result := some (wordsToBytes (8 * out.length) (pairsToWords out)),
          metadata := some { keyLength := some 128, ivLength := some 8,
                             mode := some mode, variant := some variant } }
    else
      { success := false, error := some ("Mode " ++ mode ++ " not implemented for XTEA") }

/-! Salsa20 ARX core, from Salsa20Engine in src/crypto/engines/salsa20.ts.
The state is a list of sixteen 32-bit words; key and nonce enter as CryptoJS
big-endian word lists.  The JavaScript expression key.words[i] || fallback
returns the fallback both when the slot is absent and when it holds 0. -/
/-- JavaScript logical-or on numbers: b when a is 0 (or absent), else a. -/
def jsOr (a b : Nat) : Nat := if a = 0 then b else a

/-- Salsa20 quarter-round on state slots (a, b, c, d), updating in place:
b ^= rotl(a+d,7); c ^= rotl(b+a,9); d ^= rotl(c+b,13); a ^= rotl(d+c,18). -/
def salsaQR (s : List Nat) (a b c d : Nat) : List Nat :=
  let s1 := s.set b (xor32 (s.getD b 0) (rotl32 (add32 (s.getD a 0) (s.getD d 0)) 7))
  let s2 := s1.set c (xor32 (s1.getD c 0) (rotl32 (add32 (s1.getD b 0) (s1.getD a 0)) 9))
  let s3 := s2.set d (xor32 (s2.getD d 0) (rotl32 (add32 (s2.getD c 0) (s2.getD b 0)) 13))
  s3.set a (xor32 (s3.getD a 0) (rotl32 (add32 (s3.getD d 0) (s3.getD c 0)) 18))

/-- One iteration of the Salsa20 round loop: a column round over the four
column quads followed by a row round over the four row quads. -/
def salsaDoubleRound (s : List Nat) : List Nat :=
  let s1 := salsaQR s 0 4 8 12
  let s2 := salsaQR s1 5 9 13 1
  let s3 := salsaQR s2 10 14 2 6
  let s4 := salsaQR s3 15 3 7 11
  let s5 := salsaQR s4 0 1 2 3
  let s6 := salsaQR s5 5 6 7 4
  let s7 := salsaQR s6 10 11 8 9
  salsaQR s7 15 12 13 14

/-- Initial Salsa20 state layout: constants at 0, 5, 10, 15; key words at
1-4 and 11-14 (the second row falling back to the first key row via ||);
nonce words at 6-7; counter at 8, high counter 0 at 9. -/
def salsaInit (kw nw : List Nat) (counter : Nat) : List Nat :=
  [1634760805,
   kw.getD 0 0, kw.getD 1 0, kw.getD 2 0, kw.getD 3 0,
   857760878,
   nw.getD 0 0, nw.getD 1 0,
   counter, 0,
   2036477234,
   jsOr (kw.getD 4 0) (kw.getD 0 0), jsOr (kw.getD 5 0) (kw.getD 1 0),
   jsOr (kw.getD 6 0) (kw.getD 2 0), jsOr (kw.getD 7 0) (kw.getD 3 0),
   1797285236]

/-- Salsa20Engine.salsa20Block: run ceil(rounds/2) double rounds on the
working state and add the original state word-wise mod 2^32.  The result is
the list of sixteen 32-bit words (no byte serialization happens here). -/
def salsa20Block (kw nw : List Nat) (counter rounds : Nat) : List Nat :=
  let st := salsaInit kw nw counter
  let ws := salsaDoubleRound^[(rounds + 1) / 2] st
  List.zipWith add32 ws st

/-- Salsa20Engine.generateKeystream: ceil(length/64) blocks at counters
0, 1, ..., concatenated and trimmed to ceil(length/4) words; the word array
carries significant-byte count `length`. -/
def salsaGenerateKeystream (kw nw : List Nat) (len rounds : Nat) : List Nat :=
  let blocks := (List.range ((len + 63) / 64)).flatMap (fun i => salsa20Block kw nw i rounds)
  blocks.take ((len + 3) / 4)

/-- Salsa20Engine.xorWithKeystream: xor data words with keystream words up
to the shorter length, keeping any remaining data words unchanged. -/
def xorWordsJS (data ks : List Nat) : List Nat :=
  List.zipWith xor32 data ks ++ data.drop ks.length

/-- Rounds selection from the variant identifier, defaulting to 20. -/
def salsaRoundsFromVariant (variant : String) : Nat :=
  if variant = "salsa20/8" then 8
  else if variant = "salsa20/12" then 12
  else if variant = "salsa20/20" then 20
  else 20

/-- Salsa20Engine.encrypt. -/
def salsaEncrypt (p : EncryptionParams) : CryptoOperation :=
  if p.plaintext = [] ∨ p.key = [] then
    { success := false, error := some "Plaintext and key are required" }
  else if p.nonce.getD [] = [] then
    { success := false, error := some "Nonce is required for Salsa20" }
  else if ¬ (p.key.length = 16 ∨ p.key.length = 32) then
    { success := false, error := some "Invalid Salsa20 key. Must be 16 or 32 bytes" }
  else if ¬ (p.nonce.getD []).length = 8 then
    { success := false, error := some "Invalid Salsa20 nonce. Must be 8 bytes" }
  else
    let kw := bytesToWords p.key
    let nw := bytesToWords (p.nonce.getD [])
    let ptw := bytesToWords p.plaintext
    let len := p.plaintext.length
    let rounds := salsaRoundsFromVariant (p.variant.getD "salsa20/20")
    let ks := salsaGenerateKeystream kw nw len rounds
    { success := true,
      result := some (wordsToBytes len (xorWordsJS ptw ks)),
      metadata := some { keyLength := some (p.key.length * 8), nonceLength := some 8,
                         variant := some (p.variant.getD "salsa20/20") } }

/-- Salsa20Engine.decrypt. -/
def salsaDecrypt (p : DecryptionParams) : CryptoOperation :=
  if p.ciphertext = [] ∨ p.key = [] then
    { success := false, error := some "Ciphertext and key are required" }
  else if p.nonce.getD [] = [] then
    { success := false, error := some "Nonce is required for Salsa20" }
  else if ¬ (p.key.length = 16 ∨ p.key.length = 32) then
    { success := false, error := some "Invalid Salsa20 key. Must be 16 or 32 bytes" }
  else if ¬ (p.nonce.getD []).length = 8 then
    { success := false, error := some "Invalid Salsa20 nonce. Must be 8 bytes" }
  else
    let kw := bytesToWords p.key
    let nw := bytesToWords (p.nonce.getD [])
    let ctw := bytesToWords p.ciphertext
    let len := p.ciphertext.length
    let rounds := salsaRoundsFromVariant (p.variant.getD "salsa20/20")
    let ks := salsaGenerateKeystream kw nw len rounds
    { success := true,
      result := some (wordsToBytes len (xorWordsJS ctw ks)),
      metadata := some { keyLength := some (p.key.length * 8), nonceLength := some 8,
                         variant := some (p.variant.getD "salsa20/20") } }

/-! ChaCha20 ARX core, from the ChaCha20 class in the chacha20 part of
src/crypto/engines/twofish.js.  Key, nonce, plaintext and keystream are raw
byte sequences (Uint8Array); words are loaded and stored little-endian. -/
/-- Little-endian load of the 32-bit word at byte offset off. -/
def leWordAt (bytes : List Nat) (off : Nat) : Nat :=
  bytes.getD off 0 + bytes.getD (off + 1) 0 * 256
    + bytes.getD (off + 2) 0 * 65536 + bytes.getD (off + 3) 0 * 16777216

/-- ChaCha20 quarter-round on state slots (a, b, c, d) with rotations
16, 12, 8, 7. -/
def chachaQR (s : List Nat) (a b c d : Nat) : List Nat :=
  let s1 := s.set a (add32 (s.getD a 0) (s.getD b 0))
  let s2 := s1.set d (rotl32 (xor32 (s1.getD d 0) (s1.getD a 0)) 16)
  let s3 := s2.set c (add32 (s2.getD c 0) (s2.getD d 0))
  let s4 := s3.set b (rotl32 (xor32 (s3.getD b 0) (s3.getD c 0)) 12)
  let s5 := s4.set a (add32 (s4.getD a 0) (s4.getD b 0))
  let s6 := s5.set d (rotl32 (xor32 (s5.getD d 0) (s5.getD a 0)) 8)
  let s7 := s6.set c (add32 (s6.getD c 0) (s6.getD d 0))
  s7.set b (rotl32 (xor32 (s7.getD b 0) (s7.getD c 0)) 7)

/-- One iteration of the ChaCha20 round loop: four column quarter-rounds
then four diagonal quarter-rounds. -/
def chachaDoubleRound (s : List Nat) : List Nat :=
  let s1 := chachaQR s 0 4 8 12
  let s2 := chachaQR s1 1 5 9 13
  let s3 := chachaQR s2 2 6 10 14
  let s4 := chachaQR s3 3 7 11 15
  let s5 := chachaQR s4 0 5 10 15
  let s6 := chachaQR s5 1 6 11 12
  let s7 := chachaQR s6 2 7 8 13
  chachaQR s7 3 4 9 14

/-- Initial ChaCha20 state: four constants, eight little-endian key words,
the 32-bit block counter at slot 12, three little-endian nonce words. -/
def chachaInit (key nonce : List Nat) (counter : Nat) : List Nat :=
  [1634760805, 857760878, 2036477234, 1797285236,
   leWordAt key 0, leWordAt key 4, leWordAt key 8, leWordAt key 12,
   leWordAt key 16, leWordAt key 20, leWordAt key 24, leWordAt key 28,
   counter % W,
   leWordAt nonce 0, leWordAt nonce 4, leWordAt nonce 8]

/-- Little-endian byte serialization of a word list. -/
def wordsToBytesLE (ws : List Nat) : List Nat :=
  ws.flatMap (fun w => [w % 256, w / 256 % 256, w / 65536 % 256, w / 16777216 % 256])

/-- ChaCha20.chacha20Block: ten double rounds on the working state, add the
original state word-wise mod 2^32, serialize the sixteen words to 64
little-endian bytes. -/
def chacha20Block (key nonce : List Nat) (counter : Nat) : List Nat :=
  let st := chachaInit key nonce counter
  let ws := chachaDoubleRound^[10] st
  wordsToBytesLE (List.zipWith add32 ws st)

/-- Chunked encryption loop of ChaCha20.encrypt: one keystream block per
64-byte chunk, counter incremented after each chunk; fuel is the number of
chunks ceil(len/64). -/
def chachaEncryptGo (key nonce : List Nat) : Nat → Nat → List Nat → List Nat
  | 0, _, _ => []
  | n + 1, counter, pt =>
    List.zipWith (fun a b => a ^^^ b) (pt.take 64) (chacha20Block key nonce counter)
      ++ chachaEncryptGo key nonce n (counter + 1) (pt.drop 64)

/-- ChaCha20.encrypt: xor the input with the keystream, block by block,
counter starting at 0. -/
def chachaEncryptBytes (pt key nonce : List Nat) : List Nat :=
  chachaEncryptGo key nonce ((pt.length + 63) / 64) 0 pt

/-- ChaCha20Engine.encrypt. -/
def chachaEncrypt (p : EncryptionParams) : CryptoOperation :=
  if ¬ p.key.length = 32 then
    { success := false, error := some "Invalid key length. Expected 32 bytes (64 hex characters)." }
  else if ¬ (p.nonce.getD []).length = 12 then
    { success := false, error := some "Invalid nonce length. Expected 12 bytes (24 hex characters)." }
  else
    { success := true,
      result := some (chachaEncryptBytes p.plaintext p.key (p.nonce.getD [])),
      metadata := some { keyLength := some 32, nonceLength := some 12,
                         mode := some "Stream", variant := some "chacha20" } }

/-- ChaCha20Engine.decrypt (the same keystream xor applied to the
ciphertext bytes). -/
def chachaDecrypt (p : DecryptionParams) : CryptoOperation :=
  if ¬ p.key.length = 32 then
    { success := false, error := some "Invalid key length. Expected 32 bytes (64 hex characters)." }
  else if ¬ (p.nonce.getD []).length = 12 then
    { success := false, error := some "Invalid nonce length. Expected 12 bytes (24 hex characters)." }
  else
    { success := true,
      result := some (chachaEncryptBytes p.ciphertext p.key (p.nonce.getD [])),
      metadata := some { keyLength := some 32, nonceLength := some 12,
                         mode := some "Stream", variant := some "chacha20" } }

/-! Cipher registry, from the CipherRegistry class of the repository
(src/crypto/registry).  The two JavaScript Map objects are modelled as
association lists with Map.set semantics: updating in place when the key is
present, appending otherwise.  Engines are abstract values carrying their
declared metadata identifier. -/
/-- JavaScript Map.set: replace the value in place when the key exists,
append the binding otherwise. -/
def mapSet {β : Type} (m : List (String × β)) (k : String) (v : β) : List (String × β) :=
  if m.any (fun pr => pr.1 = k) then
    m.map (fun pr => if pr.1 = k then (k, v) else pr)
  else m ++ [(k, v)]

/-- JavaScript Map.get: the stored value, or absent when the key is
unknown. -/
def mapGet {β : Type} (m : List (String × β)) (k : String) : Option β :=
  (m.find? (fun pr => pr.1 = k)).map Prod.snd

/-- JavaScript Map.has. -/
def mapHas {β : Type} (m : List (String × β)) (k : String) : Bool :=
  m.any (fun pr => pr.1 = k)

/-- An engine as the registry sees it: an opaque payload of engine type ε
together with the metadata record (of type μ) it declares, which carries the
identifier used for registration. -/
structure RegisteredEngine (ε μ : Type) where
  payload : ε
  mdId : String
  md : μ

/-- State of CipherRegistry: the engines map and the metadata map. -/
structure CipherRegistry (ε μ : Type) where
  engines : List (String × RegisteredEngine ε μ) := []
  metadata : List (String × μ) := []

/-- CipherRegistry.register: insert the engine and its metadata under the
identifier declared in the engine metadata. -/
def CipherRegistry.register {ε μ : Type} (st : CipherRegistry ε μ)
    (e : RegisteredEngine ε μ) : CipherRegistry ε μ :=
  { engines := mapSet st.engines e.mdId e,
    metadata := mapSet st.metadata e.mdId e.md }

/-- CipherRegistry.getEngine: Map.get on the engines table. -/
def CipherRegistry.getEngine {ε μ : Type} (st : CipherRegistry ε μ) (id : String) :
    Option (RegisteredEngine ε μ) :=
  mapGet st.engines id

/-- CipherRegistry.getMetadata: Map.get on the metadata table. -/
def CipherRegistry.getMetadata {ε μ : Type} (st : CipherRegistry ε μ) (id : String) :
    Option μ :=
  mapGet st.metadata id

/-- CipherRegistry.exists: Map.has on the engines table. -/
def CipherRegistry.existsId {ε μ : Type} (st : CipherRegistry ε μ) (id : String) : Bool :=
  mapHas st.engines id

theorem W_eq_two_pow : W = 2 ^ 32 := rfl

theorem add32_lt (a b : Nat) : add32 a b < W := Nat.mod_lt _ (by decide)

theorem sub32_lt (a b : Nat) : sub32 a b < W := Nat.mod_lt _ (by decide)

theorem xor32_lt (a b : Nat) : xor32 a b < W := by
  have h1 : a % W < 2 ^ 32 := Nat.mod_lt _ (by decide)
  have h2 : b % W < 2 ^ 32 := Nat.mod_lt _ (by decide)
  simpa [xor32, W_eq_two_pow] using Nat.xor_lt_two_pow h1 h2

theorem sub32_add32 (a b : Nat) (h : a < W) : sub32 (add32 a b) b = a := by
  unfold sub32 add32 W at *
  omega

theorem xor32_cancel (a b : Nat) (h : a < W) : xor32 (xor32 a b) b = a := by
  have hx : xor32 a b < W := xor32_lt a b
  unfold xor32 at *
  rw [Nat.mod_eq_of_lt hx, Nat.mod_eq_of_lt h]
  exact Nat.xor_cancel_right _ _

theorem getD_lt_of_bytesOk (l : List Nat) (h : BytesOk l) (i : Nat) : l.getD i 0 < 256 := by
  rcases hlt : l[i]? with _ | b
  · simp [List.getD_eq_getElem?_getD, hlt]
  · have hb : b ∈ l := List.getElem?_mem hlt
    simpa [List.getD_eq_getElem?_getD, hlt] using h b hb

theorem wordOfBytes_lt (l : List Nat) (h : BytesOk l) : wordOfBytes l < W := by
  have h0 := getD_lt_of_bytesOk l h 0
  have h1 := getD_lt_of_bytesOk l h 1
  have h2 := getD_lt_of_bytesOk l h 2
  have h3 := getD_lt_of_bytesOk l h 3
  unfold wordOfBytes W
  omega

theorem bytesOk_tail4 {b0 b1 b2 b3 : Nat} {t : List Nat}
    (h : BytesOk (b0 :: b1 :: b2 :: b3 :: t)) : BytesOk t :=
  fun b hb => h b (by simp [hb])

theorem bytesOk_take4 {b0 b1 b2 b3 : Nat} {t : List Nat}
    (h : BytesOk (b0 :: b1 :: b2 :: b3 :: t)) : BytesOk [b0, b1, b2, b3] := by
  intro b hb
  simp at hb
  rcases hb with h1|h1|h1|h1 <;> (subst h1; exact h b (by simp))

theorem bytesToWords_lt (l : List Nat) (h : BytesOk l) : ∀ w ∈ bytesToWords l, w < W := by
  induction l using bytesToWords.induct with
  | case1 => intro w hw; simp [bytesToWords] at hw
  | case2 b0 =>
    intro w hw
    simp only [bytesToWords, List.mem_singleton] at hw
    rw [hw]; exact wordOfBytes_lt _ h
  | case3 b0 b1 =>
    intro w hw
    simp only [bytesToWords, List.mem_singleton] at hw
    rw [hw]; exact wordOfBytes_lt _ h
  | case4 b0 b1 b2 =>
    intro w hw
    simp only [bytesToWords, List.mem_singleton] at hw
    rw [hw]; exact wordOfBytes_lt _ h
  | case5 b0 b1 b2 b3 t ih =>
    intro w hw
    simp only [bytesToWords, List.mem_cons] at hw
    rcases hw with hw | hw
    · rw [hw]
      exact wordOfBytes_lt _ (bytesOk_take4 h)
    · exact ih (bytesOk_tail4 h) w hw

theorem wordsToBytes_length (n : Nat) (ws : List Nat) : (wordsToBytes n ws).length = n := by
  induction ws generalizing n with
  | nil => cases n <;> simp [wordsToBytes]
  | cons w t ih =>
    cases n with
    | zero => simp [wordsToBytes]
    | succ m =>
      by_cases h : m + 1 ≤ 4
      · simp [wordsToBytes, h, wordToBytes]
        omega
      · simp [wordsToBytes, h, wordToBytes, ih]
        omega

theorem wordsToBytes_ok (n : Nat) (ws : List Nat) : BytesOk (wordsToBytes n ws) := by
  induction ws generalizing n with
  | nil =>
    cases n with
    | zero => intro b hb; simp [wordsToBytes] at hb
    | succ m =>
      intro b hb
      simp [wordsToBytes] at hb
      omega
  | cons w t ih =>
    cases n with
    | zero => intro b hb; simp [wordsToBytes] at hb
    | succ m =>
      intro b hb
      by_cases h : m + 1 ≤ 4
      · simp [wordsToBytes, h] at hb
        have : b ∈ wordToBytes w := List.mem_of_mem_take hb
        simp [wordToBytes] at this
        rcases this with h1|h1|h1|h1 <;> omega
      · simp [wordsToBytes, h] at hb
        rcases hb with h1 | h1
        · simp [wordToBytes] at h1
          rcases h1 with h2|h2|h2|h2 <;> omega
        · exact ih _ b h1

theorem wordToBytes_wordOfBytes4 (b0 b1 b2 b3 : Nat)
    (h0 : b0 < 256) (h1 : b1 < 256) (h2 : b2 < 256) (h3 : b3 < 256) :
    wordToBytes (wordOfBytes [b0, b1, b2, b3]) = [b0, b1, b2, b3] := by
  simp [wordToBytes, wordOfBytes]
  all_goals omega

/-- Reading back the number of parsed bytes from the big-endian words
recovers the original byte sequence, for any length (the zero padding of a
short final word lies beyond the significant-byte count). -/
theorem wordsToBytes_bytesToWords (l : List Nat) (h : BytesOk l) :
    wordsToBytes l.length (bytesToWords l) = l := by
  induction l using bytesToWords.induct with
  | case1 => simp [bytesToWords, wordsToBytes]
  | case2 b0 =>
    have hb0 := h b0 (by simp)
    simp [bytesToWords, wordsToBytes, wordOfBytes, wordToBytes]
    all_goals omega
  | case3 b0 b1 =>
    have hb0 := h b0 (by simp); have hb1 := h b1 (by simp)
    simp [bytesToWords, wordsToBytes, wordOfBytes, wordToBytes]
    all_goals omega
  | case4 b0 b1 b2 =>
    have hb0 := h b0 (by simp); have hb1 := h b1 (by simp); have hb2 := h b2 (by simp)
    simp [bytesToWords, wordsToBytes, wordOfBytes, wordToBytes]
    all_goals omega
  | case5 b0 b1 b2 b3 t ih =>
    have hb0 := h b0 (by simp); have hb1 := h b1 (by simp)
    have hb2 := h b2 (by simp); have hb3 := h b3 (by simp)
    have ht : BytesOk t := bytesOk_tail4 h
    have ihx := ih ht
    simp only [bytesToWords, List.length_cons]
    rcases t with _ | ⟨a, t2⟩
    · simp only [List.length_nil]
      show wordsToBytes 4 (wordOfBytes [b0, b1, b2, b3] :: bytesToWords []) = _
      simp only [wordsToBytes]
      rw [if_pos (by omega)]
      rw [wordToBytes_wordOfBytes4 b0 b1 b2 b3 hb0 hb1 hb2 hb3]
      simp
    · have hlen : (a :: t2).length + 1 + 1 + 1 + 1 = ((a :: t2).length + 3) + 1 := by omega
      rw [hlen]
      show wordsToBytes ((a :: t2).length + 3 + 1) (_ :: bytesToWords (a :: t2)) = _
      rw [wordsToBytes]
      rw [if_neg (show ¬((a :: t2).length + 3 + 1 ≤ 4) by simp)]
      rw [show (a :: t2).length + 3 - 3 = (a :: t2).length by omega]
      rw [wordToBytes_wordOfBytes4 b0 b1 b2 b3 hb0 hb1 hb2 hb3, ihx]
      simp

theorem teaEncRound_ok (k0 k1 k2 k3 s : Nat) (v : Nat × Nat) :
    BlockOk (teaEncRound k0 k1 k2 k3 s v) :=
  ⟨add32_lt _ _, add32_lt _ _⟩

theorem teaDecRound_teaEncRound (k0 k1 k2 k3 s : Nat) (v : Nat × Nat) (h : BlockOk v) :
    teaDecRound k0 k1 k2 k3 s (teaEncRound k0 k1 k2 k3 s v) = v := by
  obtain ⟨h0, h1⟩ := h
  unfold teaEncRound teaDecRound
  simp only
  rw [sub32_add32 _ _ h1, sub32_add32 _ _ h0]

theorem teaEncRounds_ok (k0 k1 k2 k3 : Nat) (n s : Nat) (v : Nat × Nat) (h : BlockOk v) :
    BlockOk (teaEncRounds k0 k1 k2 k3 n s v) := by
  induction n generalizing s v with
  | zero => exact h
  | succ m ih => exact ih _ _ (teaEncRound_ok _ _ _ _ _ _)

/-- Peeling the last round off the encryption loop: after n+1 rounds from
sum s, the final round ran at sum (s + (n+1) * delta) mod 2^32. -/
theorem teaEncRounds_succ (k0 k1 k2 k3 : Nat) (n s : Nat) (v : Nat × Nat) (hs : s < W) :
    teaEncRounds k0 k1 k2 k3 (n + 1) s v =
      teaEncRound k0 k1 k2 k3 ((s + (n + 1) * teaDelta) % W)
        (teaEncRounds k0 k1 k2 k3 n s v) := by
  induction n generalizing s v with
  | zero =>
    simp only [teaEncRounds, Nat.zero_add, one_mul]
    rfl
  | succ m ih =>
    have hstep : teaEncRounds k0 k1 k2 k3 (m + 1 + 1) s v
        = teaEncRounds k0 k1 k2 k3 (m + 1) (add32 s teaDelta)
            (teaEncRound k0 k1 k2 k3 (add32 s teaDelta) v) := rfl
    rw [hstep, ih (add32 s teaDelta) _ (add32_lt _ _)]
    have harith : (add32 s teaDelta + (m + 1) * teaDelta) % W
        = (s + (m + 1 + 1) * teaDelta) % W := by
      unfold add32 teaDelta W
      omega
    rw [harith]
    rfl

theorem teaDecRounds_teaEncRounds (k0 k1 k2 k3 : Nat) (n s : Nat) (v : Nat × Nat)
    (hs : s < W) (h : BlockOk v) :
    teaDecRounds k0 k1 k2 k3 n ((s + n * teaDelta) % W) (teaEncRounds k0 k1 k2 k3 n s v) = v := by
  induction n generalizing v with
  | zero =>
    simp only [teaEncRounds, teaDecRounds]
  | succ m ih =>
    rw [teaEncRounds_succ k0 k1 k2 k3 m s v hs]
    simp only [teaDecRounds]
    rw [teaDecRound_teaEncRound _ _ _ _ _ _ (teaEncRounds_ok _ _ _ _ m s v h)]
    have harith : sub32 ((s + (m + 1) * teaDelta) % W) teaDelta = (s + m * teaDelta) % W := by
      unfold sub32 teaDelta W
      omega
    rw [harith]
    exact ih v h

/-- TEA single-block decryption inverts single-block encryption. -/
theorem teaDecryptBlock_teaEncryptBlock (k0 k1 k2 k3 : Nat) (v : Nat × Nat) (h : BlockOk v) :
    teaDecryptBlock k0 k1 k2 k3 (teaEncryptBlock k0 k1 k2 k3 v) = v := by
  unfold teaDecryptBlock teaEncryptBlock
  have harith : mul32 teaDelta 32 = (0 + 32 * teaDelta) % W := by
    unfold mul32 teaDelta W
    omega
  rw [harith]
  exact teaDecRounds_teaEncRounds k0 k1 k2 k3 32 0 v (by unfold W; omega) h

theorem mapGet_mapSet {β : Type} (m : List (String × β)) (k : String) (v : β) :
    mapGet (mapSet m k v) k = some v := by
  unfold mapGet mapSet
  by_cases h : m.any (fun pr => pr.1 = k)
  · rw [if_pos h]
    induction m with
    | nil => simp at h
    | cons p t ih =>
      by_cases hp : p.1 = k
      · simp only [List.map_cons, if_pos hp]
        rw [List.find?_cons_of_pos _ (by simp)]
        simp
      · simp only [List.map_cons, if_neg hp]
        rw [List.find?_cons_of_neg _ (by simpa using hp)]
        apply ih
        simp only [List.any_cons, Bool.or_eq_true] at h
        rcases h with h | h
        · exact absurd (by simpa using h) hp
        · simpa using h
  · rw [if_neg h]
    simp only [List.any_cons, Bool.or_eq_true] at h
    push_neg at h
    induction m with
    | nil =>
      simp only [List.nil_append]
      rw [List.find?_cons_of_pos _ (by simp)]
      simp
    | cons p t ih =>
      have hp : ¬ p.1 = k := by
        intro hc
        exact h (by simp [hc])
      rw [List.cons_append, List.find?_cons_of_neg _ (by simpa using hp)]
      apply ih
      intro hc
      exact h (by simp [hc])

theorem mapGet_none_of_not_mem {β : Type} (m : List (String × β)) (k : String)
    (h : ∀ pr ∈ m, pr.1 ≠ k) : mapGet m k = none := by
  unfold mapGet
  induction m with
  | nil => simp
  | cons p t ih =>
    have hp := h p (by simp)
    rw [List.find?_cons_of_neg _ (by simpa using hp)]
    exact ih (fun pr hpr => h pr (by simp [hpr]))

/-! Arithmetic facts about xor against division and remainder by powers of
two, used to push word-level xor down to bytes. -/
theorem xor_div_pow (x y j : Nat) : (x ^^^ y) / 2 ^ j = x / 2 ^ j ^^^ y / 2 ^ j := by
  rw [← Nat.shiftRight_eq_div_pow, ← Nat.shiftRight_eq_div_pow, ← Nat.shiftRight_eq_div_pow]
  apply Nat.eq_of_testBit_eq
  intro i
  simp [Nat.testBit_shiftRight, Nat.testBit_xor]

theorem xor_mod_pow (x y j : Nat) : (x ^^^ y) % 2 ^ j = x % 2 ^ j ^^^ y % 2 ^ j := by
  apply Nat.eq_of_testBit_eq
  intro i
  simp only [Nat.testBit_mod_two_pow, Nat.testBit_xor]
  by_cases hij : i < j <;> simp [hij]

theorem byte_xor (x y j : Nat) :
    (x ^^^ y) / 2 ^ j % 256 = (x / 2 ^ j % 256) ^^^ (y / 2 ^ j % 256) := by
  rw [xor_div_pow]
  have h256 : (256 : Nat) = 2 ^ 8 := by norm_num
  rw [h256]
  exact xor_mod_pow _ _ 8

theorem wordToBytes_xor32 (a b : Nat) (ha : a < W) (hb : b < W) :
    wordToBytes (xor32 a b) = List.zipWith (fun x y => x ^^^ y) (wordToBytes a) (wordToBytes b) := by
  have hx : xor32 a b = a ^^^ b := by
    unfold xor32
    rw [Nat.mod_eq_of_lt ha, Nat.mod_eq_of_lt hb]
  rw [hx]
  unfold wordToBytes
  have h24 : (16777216 : Nat) = 2 ^ 24 := by norm_num
  have h16 : (65536 : Nat) = 2 ^ 16 := by norm_num
  have h8 : (256 : Nat) = 2 ^ 8 := by norm_num
  simp only [List.zipWith]
  rw [h24, h16]
  rw [byte_xor a b 24, byte_xor a b 16]
  have hb8 : (a ^^^ b) / 256 % 256 = (a / 256 % 256) ^^^ (b / 256 % 256) := by
    have := byte_xor a b 8
    simpa [h8] using this
  rw [hb8]
  have hb0 : (a ^^^ b) % 256 = (a % 256) ^^^ (b % 256) := by
    rw [h8]
    exact xor_mod_pow a b 8
  rw [hb0]

theorem zipWith_xor_replicate_zero (n : Nat) :
    List.zipWith (fun x y => x ^^^ y) (List.replicate n 0) (List.replicate n 0)
      = List.replicate n (0 : Nat) := by
  induction n with
  | zero => simp
  | succ m ih => simp [List.replicate, ih]

/-- Word-level keystream xor, read back as bytes, equals byte-level xor. -/
theorem wordsToBytes_zipWith_xor32 (n : Nat) (ws ks : List Nat)
    (hlen : ws.length = ks.length)
    (hws : ∀ w ∈ ws, w < W) (hks : ∀ w ∈ ks, w < W) :
    wordsToBytes n (List.zipWith xor32 ws ks)
      = List.zipWith (fun x y => x ^^^ y) (wordsToBytes n ws) (wordsToBytes n ks) := by
  induction ws generalizing ks n with
  | nil =>
    have hk : ks = [] := List.eq_nil_of_length_eq_zero (by simpa using hlen.symm)
    subst hk
    cases n with
    | zero => simp [wordsToBytes]
    | succ m =>
      simp only [List.zipWith, wordsToBytes]
      exact (zipWith_xor_replicate_zero (m + 1)).symm
  | cons w t ih =>
    rcases ks with _ | ⟨k, kt⟩
    · simp at hlen
    · have hlen2 : t.length = kt.length := by simpa using hlen
      have hw : w < W := hws w (by simp)
      have hk : k < W := hks k (by simp)
      have hwt : ∀ x ∈ t, x < W := fun x hx => hws x (by simp [hx])
      have hkt : ∀ x ∈ kt, x < W := fun x hx => hks x (by simp [hx])
      cases n with
      | zero => simp [wordsToBytes]
      | succ m =>
        by_cases hm : m + 1 ≤ 4
        · simp only [List.zipWith, wordsToBytes, if_pos hm]
          rw [wordToBytes_xor32 w k hw hk, List.take_zipWith]
          simp [wordToBytes]
        · simp only [List.zipWith, wordsToBytes, if_neg hm]
          rw [wordToBytes_xor32 w k hw hk]
          rw [ih (m - 3) kt hlen2 hwt hkt]
          exact (List.zipWith_append _ _ _ _ _ (by simp [wordToBytes])).symm

/-- Pointwise xor with the same list cancels. -/
theorem zipWith_xor_cancel (a b : List Nat) (h : a.length ≤ b.length) :
    List.zipWith (fun x y => x ^^^ y) (List.zipWith (fun x y => x ^^^ y) a b) b = a := by
  induction a generalizing b with
  | nil => simp
  | cons x t ih =>
    rcases b with _ | ⟨y, bt⟩
    · simp at h
    · simp only [List.zipWith]
      rw [ih bt (by simpa using h)]
      simp [Nat.xor_cancel_right]

theorem wordOfBytes_wordToBytes (w : Nat) (h : w < W) :
    wordOfBytes (wordToBytes w) = w := by
  unfold wordOfBytes wordToBytes W at *
  simp [List.getD]
  omega

theorem bytesToWords_length (l : List Nat) : (bytesToWords l).length = (l.length + 3) / 4 := by
  induction l using bytesToWords.induct with
  | case1 => simp [bytesToWords]
  | case2 b0 => simp [bytesToWords]
  | case3 b0 b1 => simp [bytesToWords]
  | case4 b0 b1 b2 => simp [bytesToWords]
  | case5 b0 b1 b2 b3 t ih =>
    simp only [bytesToWords, List.length_cons, ih]
    omega

/-- Serializing exactly all the bytes of a word list and parsing back
recovers the words. -/
theorem bytesToWords_wordsToBytes (ws : List Nat) (h : ∀ w ∈ ws, w < W) :
    bytesToWords (wordsToBytes (4 * ws.length) ws) = ws := by
  induction ws with
  | nil => simp [wordsToBytes, bytesToWords]
  | cons w t ih =>
    have hw : w < W := h w (by simp)
    have hwb : wordToBytes w = [w / 16777216 % 256, w / 65536 % 256, w / 256 % 256, w % 256] := rfl
    rcases t with _ | ⟨u, t2⟩
    · show bytesToWords (wordsToBytes 4 [w]) = [w]
      show bytesToWords (if (4 : Nat) ≤ 4 then List.take 4 (wordToBytes w) else _) = [w]
      rw [if_pos (by omega)]
      rw [hwb]
      simp only [List.take]
      show [wordOfBytes (wordToBytes w)] = [w]
      rw [wordOfBytes_wordToBytes w hw]
    · have hlen : 4 * ((u :: t2).length + 1) = (4 * (u :: t2).length + 3) + 1 := by
        simp
        omega
      rw [show (w :: u :: t2).length = (u :: t2).length + 1 from rfl, hlen]
      show bytesToWords
          (if 4 * (u :: t2).length + 3 + 1 ≤ 4 then _
           else wordToBytes w ++ wordsToBytes (4 * (u :: t2).length + 3 - 3) (u :: t2)) = _
      rw [if_neg (by simp)]
      rw [show 4 * (u :: t2).length + 3 - 3 = 4 * (u :: t2).length by omega]
      rw [hwb]
      show wordOfBytes (wordToBytes w) :: bytesToWords (wordsToBytes (4 * (u :: t2).length) (u :: t2))
          = w :: u :: t2
      rw [wordOfBytes_wordToBytes w hw, ih (fun x hx => h x (by simp [hx]))]

/-! Shape and bound lemmas for the ARX cores. -/
theorem salsaQR_length (s : List Nat) (a b c d : Nat) :
    (salsaQR s a b c d).length = s.length := by
  simp [salsaQR]

theorem salsaDoubleRound_length (s : List Nat) :
    (salsaDoubleRound s).length = s.length := by
  simp [salsaDoubleRound, salsaQR_length]

theorem salsaDoubleRound_iterate_length (n : Nat) (s : List Nat) :
    (salsaDoubleRound^[n] s).length = s.length := by
  induction n generalizing s with
  | zero => simp
  | succ m ih =>
    rw [Function.iterate_succ_apply]
    rw [ih (salsaDoubleRound s), salsaDoubleRound_length]

theorem salsaInit_length (kw nw : List Nat) (c : Nat) : (salsaInit kw nw c).length = 16 := rfl

theorem salsa20Block_length (kw nw : List Nat) (c r : Nat) :
    (salsa20Block kw nw c r).length = 16 := by
  unfold salsa20Block
  simp [salsaDoubleRound_iterate_length, salsaInit_length]

theorem mem_zipWith_add32_lt (a b : List Nat) (w : Nat)
    (hw : w ∈ List.zipWith add32 a b) : w < W := by
  induction a generalizing b with
  | nil => simp at hw
  | cons x t ih =>
    rcases b with _ | ⟨y, bt⟩
    · simp at hw
    · simp only [List.zipWith, List.mem_cons] at hw
      rcases hw with hw | hw
      · rw [hw]; exact add32_lt _ _
      · exact ih bt hw

theorem salsa20Block_lt (kw nw : List Nat) (c r : Nat) :
    ∀ w ∈ salsa20Block kw nw c r, w < W := by
  intro w hw
  exact mem_zipWith_add32_lt _ _ w hw

theorem salsaGenerateKeystream_lt (kw nw : List Nat) (len r : Nat) :
    ∀ w ∈ salsaGenerateKeystream kw nw len r, w < W := by
  intro w hw
  unfold salsaGenerateKeystream at hw
  have hw2 := List.mem_of_mem_take hw
  rcases List.mem_flatMap.mp hw2 with ⟨i, _, hwi⟩
  exact salsa20Block_lt kw nw i r w hwi

theorem salsaGenerateKeystream_length (kw nw : List Nat) (len r : Nat) :
    (salsaGenerateKeystream kw nw len r).length = (len + 3) / 4 := by
  unfold salsaGenerateKeystream
  rw [List.length_take]
  have hflat : ((List.range ((len + 63) / 64)).flatMap
      (fun i => salsa20Block kw nw i r)).length = 16 * ((len + 63) / 64) := by
    rw [List.length_flatMap]
    have hmap : (List.range ((len + 63) / 64)).map
        (List.length ∘ fun i => salsa20Block kw nw i r)
        = (List.range ((len + 63) / 64)).map (fun _ => 16) := by
      apply List.map_congr_left
      intro i _
      exact salsa20Block_length kw nw i r
    rw [hmap]
    induction (len + 63) / 64 with
    | zero => simp
    | succ q ihq =>
      rw [List.range_succ]
      simp only [List.map_append, List.sum_append, List.map_cons, List.map_nil]
      rw [ihq]
      simp
      omega
  rw [hflat]
  omega

theorem chachaQR_length (s : List Nat) (a b c d : Nat) :
    (chachaQR s a b c d).length = s.length := by
  simp [chachaQR]

theorem chachaDoubleRound_length (s : List Nat) :
    (chachaDoubleRound s).length = s.length := by
  simp [chachaDoubleRound, chachaQR_length]

theorem chachaDoubleRound_iterate_length (n : Nat) (s : List Nat) :
    (chachaDoubleRound^[n] s).length = s.length := by
  induction n generalizing s with
  | zero => simp
  | succ m ih =>
    rw [Function.iterate_succ_apply]
    rw [ih (chachaDoubleRound s), chachaDoubleRound_length]

theorem wordsToBytesLE_length (ws : List Nat) : (wordsToBytesLE ws).length = 4 * ws.length := by
  induction ws with
  | nil => simp [wordsToBytesLE]
  | cons w t ih =>
    simp only [wordsToBytesLE, List.flatMap_cons] at *
    simp [ih]
    omega

theorem chacha20Block_length (key nonce : List Nat) (c : Nat) :
    (chacha20Block key nonce c).length = 64 := by
  unfold chacha20Block
  rw [wordsToBytesLE_length, List.length_zipWith, chachaDoubleRound_iterate_length]
  simp [chachaInit]

theorem chachaEncryptGo_nil (key nonce : List Nat) (fuel c : Nat) :
    chachaEncryptGo key nonce fuel c [] = [] := by
  induction fuel generalizing c with
  | zero => rfl
  | succ n ih => simp [chachaEncryptGo, ih]

theorem chachaEncryptGo_length (key nonce : List Nat) (fuel : Nat) :
    ∀ (c : Nat) (pt : List Nat), pt.length ≤ 64 * fuel →
      (chachaEncryptGo key nonce fuel c pt).length = pt.length := by
  induction fuel with
  | zero =>
    intro c pt h
    have : pt = [] := List.eq_nil_of_length_eq_zero (by omega)
    simp [this, chachaEncryptGo]
  | succ n ih =>
    intro c pt h
    simp only [chachaEncryptGo, List.length_append, List.length_zipWith,
      chacha20Block_length, List.length_take]
    rw [ih (c + 1) (pt.drop 64) (by simp; omega)]
    simp
    omega

/-- The chunked keystream loop is an involution: running it twice with the
same key, nonce, starting counter and fuel returns the input. -/
theorem chachaEncryptGo_involution (key nonce : List Nat) (fuel : Nat) :
    ∀ (c : Nat) (pt : List Nat), pt.length ≤ 64 * fuel →
      chachaEncryptGo key nonce fuel c (chachaEncryptGo key nonce fuel c pt) = pt := by
  induction fuel with
  | zero =>
    intro c pt h
    have : pt = [] := List.eq_nil_of_length_eq_zero (by omega)
    simp [this, chachaEncryptGo]
  | succ n ih =>
    intro c pt h
    by_cases hlen : pt.length ≤ 64
    · have hdrop : pt.drop 64 = [] := List.drop_of_length_le hlen
      have htake : pt.take 64 = pt := List.take_of_length_le hlen
      simp only [chachaEncryptGo, hdrop, htake, chachaEncryptGo_nil, List.append_nil]
      have hctlen : (List.zipWith (fun a b => a ^^^ b) pt (chacha20Block key nonce c)).length
          = pt.length := by
        simp [chacha20Block_length]
        omega
      rw [List.take_of_length_le (by rw [hctlen]; exact hlen),
        List.drop_of_length_le (by rw [hctlen]; exact hlen)]
      simp only [chachaEncryptGo_nil, List.append_nil]
      exact zipWith_xor_cancel pt _ (by rw [chacha20Block_length]; exact hlen)
    · push_neg at hlen
      have hz : (List.zipWith (fun a b => a ^^^ b) (pt.take 64) (chacha20Block key nonce c)).length
          = 64 := by
        simp [chacha20Block_length]
        omega
      simp only [chachaEncryptGo]
      rw [List.take_left' hz, List.drop_left' hz]
      rw [zipWith_xor_cancel (pt.take 64) _ (by simp [chacha20Block_length])]
      rw [ih (c + 1) (pt.drop 64) (by simp; omega)]
      exact List.take_append_drop 64 pt

/-- ChaCha20.encrypt applied twice with the same key and nonce returns the
original byte sequence. -/
theorem chachaEncryptBytes_involution (pt key nonce : List Nat) :
    chachaEncryptBytes (chachaEncryptBytes pt key nonce) key nonce = pt := by
  unfold chachaEncryptBytes
  have hfuel : pt.length ≤ 64 * ((pt.length + 63) / 64) := by omega
  have hlen : (chachaEncryptGo key nonce ((pt.length + 63) / 64) 0 pt).length = pt.length :=
    chachaEncryptGo_length key nonce _ 0 pt hfuel
  rw [hlen]
  exact chachaEncryptGo_involution key nonce _ 0 pt hfuel

theorem chachaEncryptBytes_length (pt key nonce : List Nat) :
    (chachaEncryptBytes pt key nonce).length = pt.length := by
  unfold chachaEncryptBytes
  exact chachaEncryptGo_length key nonce _ 0 pt (by omega)

theorem wordsToBytes_bytesToWords2 (l : List Nat) (h : BytesOk l) (n : Nat)
    (hn : n = l.length) : wordsToBytes n (bytesToWords l) = l := by
  rw [hn]
  exact wordsToBytes_bytesToWords l h

theorem xorWordsJS_eq_zip (data ks : List Nat) (h : ks.length ≥ data.length) :
    xorWordsJS data ks = List.zipWith xor32 data ks := by
  unfold xorWordsJS
  rw [List.drop_of_length_le h, List.append_nil]

/-- Core Salsa20 stream round trip at the byte level: masking with the
keystream twice recovers the plaintext, for every plaintext length. -/
theorem salsaStream_roundtrip (pt kw nw : List Nat) (rounds : Nat) (hpt : BytesOk pt) :
    wordsToBytes pt.length
        (xorWordsJS
          (bytesToWords (wordsToBytes pt.length
            (xorWordsJS (bytesToWords pt) (salsaGenerateKeystream kw nw pt.length rounds))))
          (salsaGenerateKeystream kw nw pt.length rounds)) = pt := by
  set len := pt.length with hlen
  set ks := salsaGenerateKeystream kw nw len rounds with hks
  have hkslen : ks.length = (len + 3) / 4 := salsaGenerateKeystream_length kw nw len rounds
  have hkslt : ∀ w ∈ ks, w < W := salsaGenerateKeystream_lt kw nw len rounds
  have hptwlen : (bytesToWords pt).length = (len + 3) / 4 := bytesToWords_length pt
  have hptwlt : ∀ w ∈ bytesToWords pt, w < W := bytesToWords_lt pt hpt
  rw [xorWordsJS_eq_zip (bytesToWords pt) ks (by omega)]
  have hct : wordsToBytes len (List.zipWith xor32 (bytesToWords pt) ks)
      = List.zipWith (fun x y => x ^^^ y) pt (wordsToBytes len ks) := by
    rw [wordsToBytes_zipWith_xor32 len _ _ (by omega) hptwlt hkslt]
    rw [hlen, wordsToBytes_bytesToWords pt hpt]
  rw [hct]
  have hksblen : (wordsToBytes len ks).length = len := wordsToBytes_length len ks
  have hctlen : (List.zipWith (fun x y => x ^^^ y) pt (wordsToBytes len ks)).length = len := by
    rw [List.length_zipWith, hksblen, hlen]
    omega
  have hctok : BytesOk (List.zipWith (fun x y => x ^^^ y) pt (wordsToBytes len ks)) := by
    have := wordsToBytes_ok len (List.zipWith xor32 (bytesToWords pt) ks)
    rw [hct] at this
    exact this
  have hctwlen : (bytesToWords
      (List.zipWith (fun x y => x ^^^ y) pt (wordsToBytes len ks))).length = (len + 3) / 4 := by
    rw [bytesToWords_length, hctlen]
  rw [xorWordsJS_eq_zip
        (bytesToWords (List.zipWith (fun x y => x ^^^ y) pt (wordsToBytes len ks))) ks
        (by omega)]
  rw [wordsToBytes_zipWith_xor32 len _ _ (by omega) (bytesToWords_lt _ hctok) hkslt]
  rw [wordsToBytes_bytesToWords2 _ hctok len hctlen.symm]
  exact zipWith_xor_cancel pt _ (by omega)

/-! Shape and inversion lemmas for the Feistel block lists. -/
theorem pairsToWords_chunkPairs (ws : List Nat) (h : 2 ∣ ws.length) :
    pairsToWords (chunkPairs ws) = ws := by
  induction ws using chunkPairs.induct with
  | case1 => simp [chunkPairs, pairsToWords]
  | case2 a => simp at h
  | case3 a b t ih =>
    simp only [chunkPairs, pairsToWords]
    rw [ih (by simp at h; omega)]

theorem chunkPairs_pairsToWords (bs : List (Nat × Nat)) :
    chunkPairs (pairsToWords bs) = bs := by
  induction bs with
  | nil => simp [pairsToWords, chunkPairs]
  | cons b t ih =>
    rcases b with ⟨x, y⟩
    simp only [pairsToWords, chunkPairs]
    rw [ih]

theorem pairsToWords_length (bs : List (Nat × Nat)) :
    (pairsToWords bs).length = 2 * bs.length := by
  induction bs with
  | nil => simp [pairsToWords]
  | cons b t ih =>
    rcases b with ⟨x, y⟩
    simp only [pairsToWords, List.length_cons, ih]
    omega

theorem chunkPairs_ok (ws : List Nat) (h : ∀ w ∈ ws, w < W) :
    ∀ b ∈ chunkPairs ws, BlockOk b := by
  induction ws using chunkPairs.induct with
  | case1 => simp [chunkPairs]
  | case2 a =>
    intro b hb
    simp [chunkPairs] at hb
    rw [hb]
    exact ⟨h a (by simp), by unfold W; omega⟩
  | case3 a c t ih =>
    intro b hb
    simp only [chunkPairs, List.mem_cons] at hb
    rcases hb with hb | hb
    · rw [hb]
      exact ⟨h a (by simp), h c (by simp)⟩
    · exact ih (fun w hw => h w (by simp [hw])) b hb

theorem pairsToWords_lt (bs : List (Nat × Nat)) (h : ∀ b ∈ bs, BlockOk b) :
    ∀ w ∈ pairsToWords bs, w < W := by
  induction bs with
  | nil => simp [pairsToWords]
  | cons b t ih =>
    rcases b with ⟨x, y⟩
    intro w hw
    have hb := h (x, y) (by simp)
    simp only [pairsToWords, List.mem_cons] at hw
    rcases hw with hw | hw | hw
    · rw [hw]; exact hb.1
    · rw [hw]; exact hb.2
    · exact ih (fun c hc => h c (by simp [hc])) w hw

theorem xorPair_ok (a b : Nat × Nat) : BlockOk (xorPair a b) :=
  ⟨xor32_lt _ _, xor32_lt _ _⟩

theorem xorPair_cancel (a b : Nat × Nat) (h : BlockOk a) : xorPair (xorPair a b) b = a := by
  unfold xorPair
  simp only
  rw [xor32_cancel _ _ h.1, xor32_cancel _ _ h.2]

theorem teaEncryptBlock_ok (k0 k1 k2 k3 : Nat) (v : Nat × Nat) (h : BlockOk v) :
    BlockOk (teaEncryptBlock k0 k1 k2 k3 v) :=
  teaEncRounds_ok k0 k1 k2 k3 32 0 v h

/-- ECB round trip over a block list. -/
theorem teaECB_roundtrip (k0 k1 k2 k3 : Nat) (bs : List (Nat × Nat))
    (h : ∀ b ∈ bs, BlockOk b) :
    (bs.map (teaEncryptBlock k0 k1 k2 k3)).map (teaDecryptBlock k0 k1 k2 k3) = bs := by
  rw [List.map_map]
  have : bs.map (teaDecryptBlock k0 k1 k2 k3 ∘ teaEncryptBlock k0 k1 k2 k3) = bs.map id := by
    apply List.map_congr_left
    intro b hb
    exact teaDecryptBlock_teaEncryptBlock k0 k1 k2 k3 b (h b hb)
  rw [this, List.map_id]

/-- CBC round trip over a block list, for any previous-block seed. -/
theorem teaCBC_roundtrip (k0 k1 k2 k3 : Nat) (bs : List (Nat × Nat)) (prev : Nat × Nat)
    (h : ∀ b ∈ bs, BlockOk b) :
    teaDecryptCBCBlocks k0 k1 k2 k3 prev (teaEncryptCBCBlocks k0 k1 k2 k3 prev bs) = bs := by
  induction bs generalizing prev with
  | nil => simp [teaEncryptCBCBlocks, teaDecryptCBCBlocks]
  | cons b t ih =>
    have hb : BlockOk b := h b (by simp)
    simp only [teaEncryptCBCBlocks, teaDecryptCBCBlocks]
    rw [teaDecryptBlock_teaEncryptBlock k0 k1 k2 k3 _ (xorPair_ok b prev)]
    rw [xorPair_cancel b prev hb]
    rw [ih _ (fun c hc => h c (by simp [hc]))]

theorem teaEncryptCBCBlocks_length (k0 k1 k2 k3 : Nat) (prev : Nat × Nat)
    (bs : List (Nat × Nat)) :
    (teaEncryptCBCBlocks k0 k1 k2 k3 prev bs).length = bs.length := by
  induction bs generalizing prev with
  | nil => simp [teaEncryptCBCBlocks]
  | cons b t ih => simp [teaEncryptCBCBlocks, ih]

theorem teaEncryptCBCBlocks_ok (k0 k1 k2 k3 : Nat) (prev : Nat × Nat)
    (bs : List (Nat × Nat)) :
    ∀ e ∈ teaEncryptCBCBlocks k0 k1 k2 k3 prev bs, BlockOk e := by
  induction bs generalizing prev with
  | nil => simp [teaEncryptCBCBlocks]
  | cons b t ih =>
    intro e he
    simp only [teaEncryptCBCBlocks, List.mem_cons] at he
    rcases he with he | he
    · rw [he]
      exact teaEncryptBlock_ok k0 k1 k2 k3 _ (xorPair_ok _ _)
    · exact ih _ e he

theorem zipWith_append_of_le {f : Nat → Nat → Nat} (a b d : List Nat) (h : a.length ≤ b.length) :
    List.zipWith f a (b ++ d) = List.zipWith f a b := by
  induction a generalizing b with
  | nil => simp
  | cons x t ih =>
    rcases b with _ | ⟨y, bt⟩
    · simp at h
    · simp only [List.cons_append, List.zipWith, List.append_eq]
      rw [ih bt (by simpa using h)]

theorem zipWith_take_right {f : Nat → Nat → Nat} (a b : List Nat) (n : Nat)
    (h : a.length ≤ n) : List.zipWith f a (b.take n) = List.zipWith f a b := by
  induction a generalizing b n with
  | nil => simp
  | cons x t ih =>
    rcases b with _ | ⟨y, bt⟩
    · simp
    · rcases n with _ | m
      · simp at h
      · simp only [List.take, List.zipWith]
        rw [ih bt m (by simpa using h)]

/-- The chunked ChaCha20 loop equals one global xor of the input with the
concatenated keystream blocks at counters c, c+1, .... -/
theorem chachaEncryptGo_zip (key nonce : List Nat) (fuel : Nat) :
    ∀ (c : Nat) (pt : List Nat), pt.length ≤ 64 * fuel →
      chachaEncryptGo key nonce fuel c pt
        = List.zipWith (fun a b => a ^^^ b) pt
            ((List.range' c fuel).flatMap (chacha20Block key nonce)) := by
  induction fuel with
  | zero =>
    intro c pt h
    have : pt = [] := List.eq_nil_of_length_eq_zero (by omega)
    simp [this, chachaEncryptGo]
  | succ n ih =>
    intro c pt h
    rw [List.range'_succ, List.flatMap_cons]
    by_cases hlen : pt.length ≤ 64
    · have hdrop : pt.drop 64 = [] := List.drop_of_length_le hlen
      have htake : pt.take 64 = pt := List.take_of_length_le hlen
      simp only [chachaEncryptGo, hdrop, htake, chachaEncryptGo_nil, List.append_nil]
      rw [zipWith_append_of_le _ _ _ (by rw [chacha20Block_length]; exact hlen)]
    · push_neg at hlen
      simp only [chachaEncryptGo]
      rw [ih (c + 1) (pt.drop 64) (by simp; omega)]
      conv_rhs => rw [← List.take_append_drop 64 pt]
      rw [List.zipWith_append _ _ _ _ _ (by rw [chacha20Block_length]; simp; omega)]

/-- ChaCha20.encrypt in closed form: ciphertext bytes are the input xored
with the first L bytes of the concatenated keystream blocks at counters
0 .. ceil(L/64) - 1. -/
theorem chachaEncryptBytes_spec (pt key nonce : List Nat) :
    chachaEncryptBytes pt key nonce
      = List.zipWith (fun a b => a ^^^ b) pt
          (((List.range ((pt.length + 63) / 64)).flatMap (chacha20Block key nonce)).take
            pt.length) := by
  unfold chachaEncryptBytes
  rw [chachaEncryptGo_zip key nonce _ 0 pt (by omega)]
  rw [List.range_eq_range']
  exact (zipWith_take_right _ _ _ (by omega)).symm

theorem wordsToBytes_eq_take_flatMap (ws : List Nat) :
    ∀ n, n ≤ 4 * ws.length → wordsToBytes n ws = (ws.flatMap wordToBytes).take n := by
  induction ws with
  | nil =>
    intro n h
    have : n = 0 := by simpa using h
    simp [this, wordsToBytes]
  | cons w t ih =>
    intro n h
    cases n with
    | zero => simp [wordsToBytes]
    | succ m =>
      by_cases hm : m + 1 ≤ 4
      · show (if m + 1 ≤ 4 then List.take (m + 1) (wordToBytes w) else _) = _
        rw [if_pos hm, List.flatMap_cons,
          List.take_append_of_le_length (by simp [wordToBytes]; omega)]
      · show (if m + 1 ≤ 4 then _ else wordToBytes w ++ wordsToBytes (m - 3) t) = _
        rw [if_neg hm, List.flatMap_cons]
        have hm4 : m + 1 = (wordToBytes w).length + (m - 3) := by
          simp [wordToBytes]
          omega
        rw [hm4, List.take_append]
        rw [ih (m - 3) (by simp at h; omega)]

theorem flatMap_wordToBytes_take (ws : List Nat) :
    ∀ m, (ws.take m).flatMap wordToBytes = (ws.flatMap wordToBytes).take (4 * m) := by
  induction ws with
  | nil => intro m; simp
  | cons w t ih =>
    intro m
    cases m with
    | zero => simp
    | succ q =>
      simp only [List.take_succ_cons, List.flatMap_cons]
      rw [ih q]
      rw [show 4 * (q + 1) = (wordToBytes w).length + 4 * q from by simp [wordToBytes]; omega]
      rw [List.take_append]

/-- The Salsa20 keystream bytes consumed by the engine are the first L
big-endian bytes of the concatenated keystream blocks at counters
0 .. ceil(L/64) - 1. -/
theorem flatMap_wordToBytes_length (ws : List Nat) :
    (ws.flatMap wordToBytes).length = 4 * ws.length := by
  induction ws with
  | nil => simp
  | cons w t ih =>
    simp only [List.flatMap_cons, List.length_append, ih, wordToBytes]
    simp
    omega

theorem salsaKeystreamBytes_spec (kw nw : List Nat) (len rounds : Nat) :
    wordsToBytes len (salsaGenerateKeystream kw nw len rounds)
      = (((List.range ((len + 63) / 64)).flatMap
          (fun i => (salsa20Block kw nw i rounds).flatMap wordToBytes)).take len) := by
  have hkslen : (salsaGenerateKeystream kw nw len rounds).length = (len + 3) / 4 :=
    salsaGenerateKeystream_length kw nw len rounds
  rw [wordsToBytes_eq_take_flatMap _ len (by omega)]
  unfold salsaGenerateKeystream
  rw [flatMap_wordToBytes_take, List.take_take]
  rw [List.flatMap_assoc]
  congr 1
  omega

/-- Byte form of the Salsa20 engine ciphertext: input bytes xored with the
keystream bytes. -/
theorem salsaCipher_byteForm (pt kw nw : List Nat) (rounds : Nat) (hpt : BytesOk pt) :
    wordsToBytes pt.length
        (xorWordsJS (bytesToWords pt) (salsaGenerateKeystream kw nw pt.length rounds))
      = List.zipWith (fun x y => x ^^^ y) pt
          (wordsToBytes pt.length (salsaGenerateKeystream kw nw pt.length rounds)) := by
  have hkslen : (salsaGenerateKeystream kw nw pt.length rounds).length = (pt.length + 3) / 4 :=
    salsaGenerateKeystream_length kw nw pt.length rounds
  have hptwlen : (bytesToWords pt).length = (pt.length + 3) / 4 := bytesToWords_length pt
  rw [xorWordsJS_eq_zip (bytesToWords pt) _ (by omega)]
  rw [wordsToBytes_zipWith_xor32 pt.length _ _ (by omega) (bytesToWords_lt pt hpt)
    (salsaGenerateKeystream_lt kw nw pt.length rounds)]
  rw [wordsToBytes_bytesToWords pt hpt]

/-- Round trip of the Salsa20 engine for any nonempty plaintext, valid key
size (16 or 32 bytes), 8-byte nonce and any variant: decrypting the
encryption result returns the plaintext bytes. -/
theorem salsaEngine_roundtrip (pt key nonce : List Nat) (variant : Option String)
    (hpt : BytesOk pt) (hptne : pt ≠ [])
    (hkey : key.length = 16 ∨ key.length = 32) (hnonce : nonce.length = 8) :
    (salsaEncrypt { plaintext := pt, key := key, nonce := some nonce,
                    variant := variant }).success = true ∧
    (salsaDecrypt { ciphertext :=
                      (salsaEncrypt { plaintext := pt, key := key, nonce := some nonce,
                                      variant := variant }).result.getD [],
                    key := key, nonce := some nonce, variant := variant }).result
      = some pt := by
  have hkne : key ≠ [] := by
    intro hc
    rw [hc] at hkey
    simp at hkey
  have hnne : nonce ≠ [] := by
    intro hc
    rw [hc] at hnonce
    simp at hnonce
  have henc : salsaEncrypt { plaintext := pt, key := key, nonce := some nonce,
                             variant := variant }
      = { success := true,
          result := some (wordsToBytes pt.length
            (xorWordsJS (bytesToWords pt)
              (salsaGenerateKeystream (bytesToWords key) (bytesToWords nonce) pt.length
                (salsaRoundsFromVariant (variant.getD "salsa20/20"))))),
          metadata := some { keyLength := some (key.length * 8), nonceLength := some 8,
                             variant := some (variant.getD "salsa20/20") } } := by
    unfold salsaEncrypt
    simp only [Option.getD_some]
    rw [if_neg (by simp [hptne, hkne]), if_neg hnne, if_neg (by simp [hkey]),
      if_neg (by simp [hnonce])]
  rw [henc]
  refine ⟨rfl, ?_⟩
  simp only [Option.getD_some]
  set ct := wordsToBytes pt.length
    (xorWordsJS (bytesToWords pt)
      (salsaGenerateKeystream (bytesToWords key) (bytesToWords nonce) pt.length
        (salsaRoundsFromVariant (variant.getD "salsa20/20")))) with hct
  have hctlen : ct.length = pt.length := wordsToBytes_length _ _
  have hctne : ct ≠ [] := by
    intro hc
    rw [hc] at hctlen
    simp at hctlen
    rcases pt with _ | _
    · exact hptne rfl
    · simp at hctlen
  have hdec : salsaDecrypt { ciphertext := ct, key := key, nonce := some nonce,
                             variant := variant }
      = { success := true,
          result := some (wordsToBytes ct.length
            (xorWordsJS (bytesToWords ct)
              (salsaGenerateKeystream (bytesToWords key) (bytesToWords nonce) ct.length
                (salsaRoundsFromVariant (variant.getD "salsa20/20"))))),
          metadata := some { keyLength := some (key.length * 8), nonceLength := some 8,
                             variant := some (variant.getD "salsa20/20") } } := by
    unfold salsaDecrypt
    simp only [Option.getD_some]
    rw [if_neg (by simp [hctne, hkne]), if_neg hnne, if_neg (by simp [hkey]),
      if_neg (by simp [hnonce])]
  rw [hdec]
  simp only [Option.some.injEq]
  rw [hctlen, hct]
  exact salsaStream_roundtrip pt (bytesToWords key) (bytesToWords nonce)
    (salsaRoundsFromVariant (variant.getD "salsa20/20")) hpt

/-- Round trip of the ChaCha20 engine for any plaintext (the empty one
included), 32-byte key and 12-byte nonce. -/
theorem chachaEngine_roundtrip (pt key nonce : List Nat)
    (hkey : key.length = 32) (hnonce : nonce.length = 12) :
    (chachaEncrypt { plaintext := pt, key := key, nonce := some nonce }).success = true ∧
    (chachaDecrypt { ciphertext :=
                       (chachaEncrypt { plaintext := pt, key := key,
                                        nonce := some nonce }).result.getD [],
                     key := key, nonce := some nonce }).result = some pt := by
  have henc : chachaEncrypt { plaintext := pt, key := key, nonce := some nonce }
      = { success := true,
          result := some (chachaEncryptBytes pt key nonce),
          metadata := some { keyLength := some 32, nonceLength := some 12,
                             mode := some "Stream", variant := some "chacha20" } } := by
    unfold chachaEncrypt
    simp only [Option.getD_some]
    rw [if_neg (by simp [hkey]), if_neg (by simp [hnonce])]
  rw [henc]
  refine ⟨rfl, ?_⟩
  have hdec : chachaDecrypt { ciphertext := chachaEncryptBytes pt key nonce,
                              key := key, nonce := some nonce }
      = { success := true,
          result := some (chachaEncryptBytes (chachaEncryptBytes pt key nonce) key nonce),
          metadata := some { keyLength := some 32, nonceLength := some 12,
                             mode := some "Stream", variant := some "chacha20" } } := by
    unfold chachaDecrypt
    rw [if_neg (by simp [hkey]), if_neg (by simp [hnonce])]
    rfl
  show (chachaDecrypt { ciphertext := chachaEncryptBytes pt key nonce,
                        key := key, nonce := some nonce }).result = some pt
  rw [hdec]
  simp only [Option.some.injEq]
  exact chachaEncryptBytes_involution pt key nonce

theorem chunkPairs_length_even (ws : List Nat) (h : 2 ∣ ws.length) :
    (chunkPairs ws).length = ws.length / 2 := by
  induction ws using chunkPairs.induct with
  | case1 => simp [chunkPairs]
  | case2 a => simp at h
  | case3 a b t ih =>
    simp only [chunkPairs, List.length_cons]
    rw [ih (by simp at h; omega)]
    omega

theorem bytesToWords_wordsToBytes2 (ws : List Nat) (h : ∀ w ∈ ws, w < W) (n : Nat)
    (hn : n = 4 * ws.length) : bytesToWords (wordsToBytes n ws) = ws := by
  rw [hn]
  exact bytesToWords_wordsToBytes ws h

/-- Round trip of the TEA engine in ECB mode for plaintexts whose byte
length is a nonzero multiple of the 8-byte block size. -/
theorem teaEngineECB_roundtrip (pt key : List Nat) (iv : Option (List Nat))
    (freshIv : List Nat)
    (hpt : BytesOk pt) (hptne : pt ≠ []) (hlen8 : 8 ∣ pt.length)
    (hkey : key.length = 16) :
    (teaEncrypt { plaintext := pt, key := key, iv := iv, mode := some "ECB" } freshIv).success
      = true ∧
    (teaDecrypt { ciphertext :=
                    (teaEncrypt { plaintext := pt, key := key, iv := iv,
                                  mode := some "ECB" } freshIv).result.getD [],
                  key := key, iv := iv, mode := some "ECB" }).result = some pt := by
  obtain ⟨m, hm⟩ := hlen8
  have hmpos : 0 < m := by
    rcases Nat.eq_zero_or_pos m with h0 | h0
    · rw [h0] at hm
      simp at hm
      exact absurd hm hptne
    · exact h0
  have hkne : key ≠ [] := by
    intro hc; rw [hc] at hkey; simp at hkey
  have hptwlen : (bytesToWords pt).length = 2 * m := by
    rw [bytesToWords_length, hm]
    omega
  have hptwne : bytesToWords pt ≠ [] := by
    intro hc
    rw [hc] at hptwlen
    simp at hptwlen
    omega
  have hsplit : splitIntoBlocks (bytesToWords pt) = chunkPairs (bytesToWords pt) := by
    unfold splitIntoBlocks
    rw [if_neg hptwne]
  have hblocksOk : ∀ b ∈ chunkPairs (bytesToWords pt), BlockOk b :=
    chunkPairs_ok _ (bytesToWords_lt pt hpt)
  have hblen : (chunkPairs (bytesToWords pt)).length = m := by
    rw [chunkPairs_length_even _ (by rw [hptwlen]; omega), hptwlen]
    omega
  set kw := bytesToWords key with hkw
  set k0 := kw.getD 0 0
  set k1 := kw.getD 1 0
  set k2 := kw.getD 2 0
  set k3 := kw.getD 3 0
  set out := (chunkPairs (bytesToWords pt)).map (teaEncryptBlock k0 k1 k2 k3) with hout
  have houtOk : ∀ b ∈ out, BlockOk b := by
    intro b hb
    rw [hout] at hb
    rcases List.mem_map.mp hb with ⟨c, hc, hbc⟩
    rw [← hbc]
    exact teaEncryptBlock_ok k0 k1 k2 k3 c (hblocksOk c hc)
  have houtlen : out.length = m := by
    rw [hout, List.length_map, hblen]
  have henc : teaEncrypt { plaintext := pt, key := key, iv := iv, mode := some "ECB" } freshIv
      = { success := true,
          result := some (wordsToBytes (8 * out.length) (pairsToWords out)),
          metadata := some { keyLength := some 128, mode := some "ECB",
                             variant := some "tea" } } := by
    unfold teaEncrypt
    simp only [Option.getD_some]
    rw [if_neg (by simp [hptne, hkne]), if_neg (by simp [hkey]), if_pos trivial, hsplit]
    rfl
  rw [henc]
  refine ⟨rfl, ?_⟩
  simp only [Option.getD_some]
  set ct := wordsToBytes (8 * out.length) (pairsToWords out) with hctdef
  have hctlen : ct.length = 8 * m := by
    rw [hctdef, wordsToBytes_length, houtlen]
  have hctne : ct ≠ [] := by
    intro hc
    rw [hc] at hctlen
    simp at hctlen
    omega
  have hctok : BytesOk ct := wordsToBytes_ok _ _
  have hctw : bytesToWords ct = pairsToWords out := by
    rw [hctdef]
    apply bytesToWords_wordsToBytes2 _ (pairsToWords_lt out houtOk)
    rw [pairsToWords_length, houtlen]
    omega
  have hctsplit : splitIntoBlocks (bytesToWords ct) = out := by
    unfold splitIntoBlocks
    rw [hctw]
    rw [if_neg (by
      intro hc
      have hplen := pairsToWords_length out
      rw [hc] at hplen
      simp only [List.length_nil] at hplen
      omega)]
    exact chunkPairs_pairsToWords out
  have hdec : teaDecrypt { ciphertext := ct, key := key, iv := iv, mode := some "ECB" }
      = { success := true,
          result := some (wordsToBytes (8 * ((splitIntoBlocks (bytesToWords ct)).map
            (teaDecryptBlock k0 k1 k2 k3)).length)
            (pairsToWords ((splitIntoBlocks (bytesToWords ct)).map
              (teaDecryptBlock k0 k1 k2 k3)))),
          metadata := some { keyLength := some 128, mode := some "ECB",
                             variant := some "tea" } } := by
    unfold teaDecrypt
    simp only [Option.getD_some]
    rw [if_neg (by simp [hctne, hkne]), if_neg (by simp [hkey]), if_pos trivial]
    rfl
  rw [hdec]
  simp only [Option.some.injEq]
  rw [hctsplit, hout]
  rw [teaECB_roundtrip k0 k1 k2 k3 _ hblocksOk]
  rw [pairsToWords_chunkPairs _ (by rw [hptwlen]; omega)]
  rw [hblen]
  rw [show 8 * m = pt.length from hm.symm]
  exact wordsToBytes_bytesToWords pt hpt

/-- Round trip of the TEA engine in CBC mode with a supplied IV, for
plaintexts whose byte length is a nonzero multiple of the block size. -/
theorem teaEngineCBC_roundtrip (pt key iv : List Nat) (freshIv : List Nat)
    (hpt : BytesOk pt) (hptne : pt ≠ []) (hlen8 : 8 ∣ pt.length)
    (hkey : key.length = 16) (hivne : iv ≠ []) :
    (teaEncrypt { plaintext := pt, key := key, iv := some iv, mode := some "CBC" }
        freshIv).success = true ∧
    (teaDecrypt { ciphertext :=
                    (teaEncrypt { plaintext := pt, key := key, iv := some iv,
                                  mode := some "CBC" } freshIv).result.getD [],
                  key := key, iv := some iv, mode := some "CBC" }).result = some pt := by
  obtain ⟨m, hm⟩ := hlen8
  have hmpos : 0 < m := by
    rcases Nat.eq_zero_or_pos m with h0 | h0
    · rw [h0] at hm
      simp at hm
      exact absurd hm hptne
    · exact h0
  have hkne : key ≠ [] := by
    intro hc; rw [hc] at hkey; simp at hkey
  have hptwlen : (bytesToWords pt).length = 2 * m := by
    rw [bytesToWords_length, hm]
    omega
  have hptwne : bytesToWords pt ≠ [] := by
    intro hc
    rw [hc] at hptwlen
    simp at hptwlen
    omega
  have hsplit : splitIntoBlocks (bytesToWords pt) = chunkPairs (bytesToWords pt) := by
    unfold splitIntoBlocks
    rw [if_neg hptwne]
  have hblocksOk : ∀ b ∈ chunkPairs (bytesToWords pt), BlockOk b :=
    chunkPairs_ok _ (bytesToWords_lt pt hpt)
  have hblen : (chunkPairs (bytesToWords pt)).length = m := by
    rw [chunkPairs_length_even _ (by rw [hptwlen]; omega), hptwlen]
    omega
  set kw := bytesToWords key with hkw
  set k0 := kw.getD 0 0
  set k1 := kw.getD 1 0
  set k2 := kw.getD 2 0
  set k3 := kw.getD 3 0
  set ivw := bytesToWords iv with hivw
  set prev := (ivw.getD 0 0, ivw.getD 1 0) with hprev
  set out := teaEncryptCBCBlocks k0 k1 k2 k3 prev (chunkPairs (bytesToWords pt)) with hout
  have houtOk : ∀ b ∈ out, BlockOk b := teaEncryptCBCBlocks_ok k0 k1 k2 k3 prev _
  have houtlen : out.length = m := by
    rw [hout, teaEncryptCBCBlocks_length, hblen]
  have henc : teaEncrypt { plaintext := pt, key := key, iv := some iv,
                           mode := some "CBC" } freshIv
      = { success := true,
          result := some (wordsToBytes (8 * out.length) (pairsToWords out)),
          metadata := some { keyLength := some 128, ivLength := some 8,
                             mode := some "CBC", variant := some "tea" } } := by
    unfold teaEncrypt
    simp only [Option.getD_some]
    rw [if_neg (by simp [hptne, hkne]), if_neg (by simp [hkey]),
      if_neg (by decide), if_pos trivial, if_neg hivne, hsplit]
    rfl
  rw [henc]
  refine ⟨rfl, ?_⟩
  simp only [Option.getD_some]
  set ct := wordsToBytes (8 * out.length) (pairsToWords out) with hctdef
  have hctlen : ct.length = 8 * m := by
    rw [hctdef, wordsToBytes_length, houtlen]
  have hctne : ct ≠ [] := by
    intro hc
    rw [hc] at hctlen
    simp at hctlen
    omega
  have hctw : bytesToWords ct = pairsToWords out := by
    rw [hctdef]
    apply bytesToWords_wordsToBytes2 _ (pairsToWords_lt out houtOk)
    rw [pairsToWords_length, houtlen]
    omega
  have hctsplit : splitIntoBlocks (bytesToWords ct) = out := by
    unfold splitIntoBlocks
    rw [hctw]
    rw [if_neg (by
      intro hc
      have hplen := pairsToWords_length out
      rw [hc] at hplen
      simp only [List.length_nil] at hplen
      omega)]
    exact chunkPairs_pairsToWords out
  have hdec : teaDecrypt { ciphertext := ct, key := key, iv := some iv, mode := some "CBC" }
      = { success := true,
          result := some (wordsToBytes
            (8 * (teaDecryptCBCBlocks k0 k1 k2 k3 prev (splitIntoBlocks (bytesToWords ct))).length)
            (pairsToWords
              (teaDecryptCBCBlocks k0 k1 k2 k3 prev (splitIntoBlocks (bytesToWords ct))))),
          metadata := some { keyLength := some 128, ivLength := some 8,
                             mode := some "CBC", variant := some "tea" } } := by
    unfold teaDecrypt
    simp only [Option.getD_some]
    rw [if_neg (by simp [hctne, hkne]), if_neg (by simp [hkey]),
      if_neg (by decide), if_pos trivial, if_neg hivne]
    rfl
  rw [hdec]
  simp only [Option.some.injEq]
  rw [hctsplit, hout]
  rw [teaCBC_roundtrip k0 k1 k2 k3 _ prev hblocksOk]
  rw [pairsToWords_chunkPairs _ (by rw [hptwlen]; omega)]
  rw [hblen]
  rw [show 8 * m = pt.length from hm.symm]
  exact wordsToBytes_bytesToWords pt hpt

/-- C2: the claim states that for both Feistel ciphers decryptBlock inverts
encryptBlock.  This holds for TEA (teaDecryptBlock_teaEncryptBlock) but the
XTEA engine violates it: evaluating the XTEA block pair at the all-zero
8-byte block and all-zero 16-byte key, decryptBlock(encryptBlock(block))
is (2616458553, 3464578941), not the original block.  The cause is
JavaScript operator precedence in the round bodies: v0 + a ^ b parses as
(v0 + a) ^ b, so the decryption rounds do not undo the encryption rounds. -/
theorem C2_xtea_block_roundtrip_fails :
    xteaDecryptBlock [0, 0, 0, 0] (xteaEncryptBlock [0, 0, 0, 0] (0, 0))
        = (2616458553, 3464578941) ∧
    xteaDecryptBlock [0, 0, 0, 0] (xteaEncryptBlock [0, 0, 0, 0] (0, 0)) ≠ (0, 0) := by
  constructor
  · decide
  · decide

/-- C3: with the 32-byte key that is all zero except a final 1, the
all-zero 12-byte RFC 8439 test nonce and block counter 1, chacha20Block
produces exactly the 64-byte keystream block published in RFC 8439
(appendix A.1, test vector 3). -/
theorem C3_chacha20Block_rfc8439_vector :
    chacha20Block (List.replicate 31 0 ++ [1]) (List.replicate 12 0) 1
      = [58, 235, 82, 36, 236, 248, 73, 146, 155, 157, 130, 141, 177, 206, 212, 221,
         131, 32, 37, 232, 1, 139, 129, 96, 184, 34, 132, 243, 201, 73, 170, 90,
         142, 202, 0, 187, 180, 167, 59, 218, 209, 146, 181, 196, 47, 115, 242, 253,
         78, 39, 54, 68, 200, 179, 97, 37, 166, 74, 221, 235, 0, 108, 19, 160] := by
  decide

/-- C4 counterexample: the Salsa20 core does not serialize its finalized
words to little-endian bytes.  At the all-zero key and nonce with counter 0
and 20 rounds, the keystream bytes the engine consumes (big-endian per
CryptoJS word) differ from the little-endian serialization of the same
words. -/
theorem C4_salsa_not_little_endian :
    wordsToBytes 64 (salsa20Block [0, 0, 0, 0] [0, 0] 0 20)
      ≠ wordsToBytesLE (salsa20Block [0, 0, 0, 0] [0, 0] 0 20) := by
  decide

/-- C4 amended: both ARX cores add the post-round working state to the
original state word-by-word mod 2^32.  ChaCha20 then serializes the sixteen
sums to 64 little-endian bytes; Salsa20 instead returns the raw 32-bit
words, and the engine reads them as big-endian bytes (CryptoJS WordArray
order) when the keystream is consumed. -/
theorem C4_finalization :
    (∀ key nonce : List Nat, ∀ c : Nat,
      chacha20Block key nonce c
        = wordsToBytesLE (List.zipWith add32
            (chachaDoubleRound^[10] (chachaInit key nonce c)) (chachaInit key nonce c))) ∧
    (∀ kw nw : List Nat, ∀ c r : Nat,
      salsa20Block kw nw c r
        = List.zipWith add32
            (salsaDoubleRound^[(r + 1) / 2] (salsaInit kw nw c)) (salsaInit kw nw c)) ∧
    (∀ kw nw : List Nat, ∀ c r : Nat,
      wordsToBytes 64 (salsa20Block kw nw c r)
        = (salsa20Block kw nw c r).flatMap wordToBytes) := by
  refine ⟨fun key nonce c => rfl, fun kw nw c r => rfl, fun kw nw c r => ?_⟩
  have hlen : (salsa20Block kw nw c r).length = 16 := salsa20Block_length kw nw c r
  rw [wordsToBytes_eq_take_flatMap _ 64 (by omega)]
  apply List.take_of_length_le
  rw [flatMap_wordToBytes_length]
  omega

/-- C1 counterexample: the full round trip fails at one of the listed
lengths.  For TEA in ECB mode with the all-zero 16-byte key and the 1-byte
plaintext byte 65, decrypt(encrypt(plaintext)) returns the zero-padded
8-byte block, not the original 1-byte plaintext (the block wrapper
zero-pads and never strips the padding). -/
theorem C1_roundtrip_fails_at_length_one :
    (teaDecrypt { ciphertext :=
                    (teaEncrypt { plaintext := [65], key := List.replicate 16 0,
                                  mode := some "ECB" } []).result.getD [],
                  key := List.replicate 16 0, mode := some "ECB" }).result ≠ some [65] := by
  decide

/-- C1 amended: the round trip decrypt(encrypt(pt)) = pt holds for TEA at
the block-aligned listed lengths 8 and 64 in ECB mode (any 16-byte key) and
in CBC mode with any nonempty IV supplied to both calls (an empty IV string
is falsy, so encrypt would substitute a random IV while decrypt fails), for
Salsa20 at the nonzero listed lengths 1, 8, 63, 64, 65 (key of 16 or 32
bytes, 8-byte nonce, any variant), and for ChaCha20 at all listed lengths
0, 1, 8, 63, 64, 65 (32-byte key, 12-byte nonce).  It fails for TEA/XTEA at
lengths 0, 1, 63, 65 (empty plaintext is rejected and partial blocks are
zero-padded without unpadding), for Salsa20 at length 0, and for XTEA at
every length (its decryptBlock does not invert encryptBlock). -/
theorem C1_roundtrip_amended :
    (∀ pt key : List Nat, ∀ iv : Option (List Nat), ∀ freshIv : List Nat,
      BytesOk pt → (pt.length = 8 ∨ pt.length = 64) → key.length = 16 →
      (teaDecrypt { ciphertext :=
                      (teaEncrypt { plaintext := pt, key := key, iv := iv,
                                    mode := some "ECB" } freshIv).result.getD [],
                    key := key, iv := iv, mode := some "ECB" }).result = some pt) ∧
    (∀ pt key iv freshIv : List Nat,
      BytesOk pt → (pt.length = 8 ∨ pt.length = 64) → key.length = 16 → iv ≠ [] →
      (teaDecrypt { ciphertext :=
                      (teaEncrypt { plaintext := pt, key := key, iv := some iv,
                                    mode := some "CBC" } freshIv).result.getD [],
                    key := key, iv := some iv, mode := some "CBC" }).result = some pt) ∧
    (∀ pt key nonce : List Nat, ∀ variant : Option String,
      BytesOk pt →
      (pt.length = 1 ∨ pt.length = 8 ∨ pt.length = 63 ∨ pt.length = 64 ∨ pt.length = 65) →
      (key.length = 16 ∨ key.length = 32) → nonce.length = 8 →
      (salsaDecrypt { ciphertext :=
                        (salsaEncrypt { plaintext := pt, key := key, nonce := some nonce,
                                        variant := variant }).result.getD [],
                      key := key, nonce := some nonce, variant := variant }).result
        = some pt) ∧
    (∀ pt key nonce : List Nat,
      (pt.length = 0 ∨ pt.length = 1 ∨ pt.length = 8 ∨ pt.length = 63 ∨ pt.length = 64 ∨
        pt.length = 65) →
      key.length = 32 → nonce.length = 12 →
      (chachaDecrypt { ciphertext :=
                         (chachaEncrypt { plaintext := pt, key := key,
                                          nonce := some nonce }).result.getD [],
                       key := key, nonce := some nonce }).result = some pt) := by
  refine ⟨?_, ?_, ?_, ?_⟩
  · intro pt key iv freshIv hpt hlen hkey
    have hne : pt ≠ [] := by
      intro hc
      rw [hc] at hlen
      simp at hlen
    have hdvd : 8 ∣ pt.length := by
      rcases hlen with h | h <;> (rw [h]; try decide)
    exact (teaEngineECB_roundtrip pt key iv freshIv hpt hne hdvd hkey).2
  · intro pt key iv freshIv hpt hlen hkey hivne
    have hne : pt ≠ [] := by
      intro hc
      rw [hc] at hlen
      simp at hlen
    have hdvd : 8 ∣ pt.length := by
      rcases hlen with h | h <;> (rw [h]; try decide)
    exact (teaEngineCBC_roundtrip pt key iv freshIv hpt hne hdvd hkey hivne).2
  · intro pt key nonce variant hpt hlen hkey hnonce
    have hne : pt ≠ [] := by
      intro hc
      rw [hc] at hlen
      simp at hlen
    exact (salsaEngine_roundtrip pt key nonce variant hpt hne hkey hnonce).2
  · intro pt key nonce _ hkey hnonce
    exact (chachaEngine_roundtrip pt key nonce hkey hnonce).2

/-- C1 witness: the amended round trips instantiated at concrete inputs
(TEA at 8 bytes in both modes with the all-zero key, Salsa20 at 1 byte,
ChaCha20 at the empty plaintext). -/
theorem C1_roundtrip_amended_witness :
    (teaDecrypt { ciphertext :=
                    (teaEncrypt { plaintext := [65, 66, 67, 68, 69, 70, 71, 72],
                                  key := List.replicate 16 0, iv := none,
                                  mode := some "ECB" } []).result.getD [],
                  key := List.replicate 16 0, iv := none, mode := some "ECB" }).result
      = some [65, 66, 67, 68, 69, 70, 71, 72] ∧
    (teaDecrypt { ciphertext :=
                    (teaEncrypt { plaintext := [65, 66, 67, 68, 69, 70, 71, 72],
                                  key := List.replicate 16 0, iv := some (List.replicate 8 0),
                                  mode := some "CBC" } []).result.getD [],
                  key := List.replicate 16 0, iv := some (List.replicate 8 0),
                  mode := some "CBC" }).result = some [65, 66, 67, 68, 69, 70, 71, 72] ∧
    (salsaDecrypt { ciphertext :=
                      (salsaEncrypt { plaintext := [65], key := List.replicate 16 0,
                                      nonce := some (List.replicate 8 0),
                                      variant := none }).result.getD [],
                    key := List.replicate 16 0, nonce := some (List.replicate 8 0),
                    variant := none }).result = some [65] ∧
    (chachaDecrypt { ciphertext :=
                       (chachaEncrypt { plaintext := [], key := List.replicate 32 0,
                                        nonce := some (List.replicate 12 0) }).result.getD [],
                     key := List.replicate 32 0,
                     nonce := some (List.replicate 12 0) }).result = some [] :=
  ⟨C1_roundtrip_amended.1 [65, 66, 67, 68, 69, 70, 71, 72] (List.replicate 16 0) none []
      (by decide) (Or.inl (by decide)) (by decide),
   C1_roundtrip_amended.2.1 [65, 66, 67, 68, 69, 70, 71, 72] (List.replicate 16 0)
      (List.replicate 8 0) [] (by decide) (Or.inl (by decide)) (by decide) (by decide),
   C1_roundtrip_amended.2.2.1 [65] (List.replicate 16 0) (List.replicate 8 0) none
      (by decide) (Or.inl (by decide)) (Or.inl (by decide)) (by decide),
   C1_roundtrip_amended.2.2.2 [] (List.replicate 32 0) (List.replicate 12 0)
      (Or.inl (by decide)) (by decide) (by decide)⟩

/-- C5 counterexample: a TEA encrypt call in CBC mode without an IV does
not fail; the engine draws a random 8-byte IV (passed explicitly here) and
succeeds. -/
theorem C5_encrypt_without_iv_succeeds :
    (teaEncrypt { plaintext := [65], key := List.replicate 16 0, mode := some "CBC" }
        (List.replicate 8 0)).success = true := by
  decide

/-- C5 amended: for TEA and XTEA, a decrypt call in CBC mode whose IV is
absent or the empty string (both falsy) fails with the IV-required message,
but an encrypt call in CBC mode with an absent or empty IV does not fail:
it silently substitutes a freshly generated random 8-byte IV (modeled as
freshIv) and succeeds.  The generated IV value is discarded: the success
metadata carries only ivLength = 8, never the IV bytes. -/
theorem C5_missing_iv :
    (∀ ct key : List Nat, ∀ iv : Option (List Nat), ∀ variant : Option String,
      iv.getD [] = [] → ct ≠ [] → key.length = 16 →
      teaDecrypt { ciphertext := ct, key := key, iv := iv, mode := some "CBC",
                   variant := variant }
        = { success := false, error := some "IV is required for CBC mode" }) ∧
    (∀ ct key : List Nat, ∀ iv : Option (List Nat), ∀ variant : Option String,
      iv.getD [] = [] → ct ≠ [] → key.length = 16 →
      xteaDecrypt { ciphertext := ct, key := key, iv := iv, mode := some "CBC",
                    variant := variant }
        = { success := false, error := some "IV is required for CBC mode" }) ∧
    (∀ pt key freshIv : List Nat, ∀ iv : Option (List Nat),
      iv.getD [] = [] → pt ≠ [] → key.length = 16 →
      (teaEncrypt { plaintext := pt, key := key, iv := iv, mode := some "CBC" }
          freshIv).success = true) ∧
    (∀ pt key freshIv : List Nat, ∀ iv : Option (List Nat),
      iv.getD [] = [] → pt ≠ [] → key.length = 16 →
      (xteaEncrypt { plaintext := pt, key := key, iv := iv, mode := some "CBC" }
          freshIv).success = true) := by
  have hk : ∀ key : List Nat, key.length = 16 → key ≠ [] := by
    intro key hkey hc
    rw [hc] at hkey
    simp at hkey
  refine ⟨?_, ?_, ?_, ?_⟩
  · intro ct key iv variant hiv hct hkey
    unfold teaDecrypt
    simp only [Option.getD_some]
    rw [if_neg (by simp [hct, hk key hkey]), if_neg (by simp [hkey]),
      if_neg (by decide), if_pos trivial, if_pos hiv]
  · intro ct key iv variant hiv hct hkey
    unfold xteaDecrypt
    simp only [Option.getD_some]
    rw [if_neg (by simp [hct, hk key hkey]), if_neg (by simp [hkey]),
      if_neg (by decide), if_pos trivial, if_pos hiv]
  · intro pt key freshIv iv hiv hpt hkey
    unfold teaEncrypt
    simp only [Option.getD_some]
    rw [if_neg (by simp [hpt, hk key hkey]), if_neg (by simp [hkey]),
      if_neg (by decide), if_pos trivial]
  · intro pt key freshIv iv hiv hpt hkey
    unfold xteaEncrypt
    simp only [Option.getD_some]
    rw [if_neg (by simp [hpt, hk key hkey]), if_neg (by simp [hkey]),
      if_neg (by decide), if_pos trivial]

/-- C5 witness: the amended statement at a concrete ciphertext, plaintext
and the all-zero key, with the decrypt calls given the empty IV string and
the encrypt calls given no IV. -/
theorem C5_missing_iv_witness :
    teaDecrypt { ciphertext := [65], key := List.replicate 16 0, iv := some [],
                 mode := some "CBC", variant := none }
      = { success := false, error := some "IV is required for CBC mode" } ∧
    xteaDecrypt { ciphertext := [65], key := List.replicate 16 0, iv := some [],
                  mode := some "CBC", variant := none }
      = { success := false, error := some "IV is required for CBC mode" } ∧
    (teaEncrypt { plaintext := [65], key := List.replicate 16 0, iv := none,
                  mode := some "CBC" } (List.replicate 8 0)).success = true ∧
    (xteaEncrypt { plaintext := [65], key := List.replicate 16 0, iv := none,
                   mode := some "CBC" } (List.replicate 8 0)).success = true :=
  ⟨C5_missing_iv.1 [65] (List.replicate 16 0) (some []) none (by decide) (by decide) (by decide),
   C5_missing_iv.2.1 [65] (List.replicate 16 0) (some []) none (by decide) (by decide)
     (by decide),
   C5_missing_iv.2.2.1 [65] (List.replicate 16 0) (List.replicate 8 0) none (by decide)
     (by decide) (by decide),
   C5_missing_iv.2.2.2 [65] (List.replicate 16 0) (List.replicate 8 0) none (by decide)
     (by decide) (by decide)⟩

/-- C6: both stream ciphers compute ceil(L/64) keystream blocks with the
block counter starting at 0 and incrementing by 1 per block (the counter
list is range ceil(L/64)), concatenate them, truncate to L bytes and xor
with the input bytes, so the ciphertext has exactly L bytes.  For ChaCha20
the block bytes are the little-endian serialization performed inside
chacha20Block; for Salsa20 they are the big-endian bytes of the block
words as the engine consumes them. -/
theorem C6_keystream_loop :
    (∀ pt key nonce : List Nat,
      (chachaEncryptBytes pt key nonce).length = pt.length ∧
      chachaEncryptBytes pt key nonce
        = List.zipWith (fun a b => a ^^^ b) pt
            (((List.range ((pt.length + 63) / 64)).flatMap (chacha20Block key nonce)).take
              pt.length)) ∧
    (∀ pt kw nw : List Nat, ∀ rounds : Nat, BytesOk pt →
      (wordsToBytes pt.length
        (xorWordsJS (bytesToWords pt)
          (salsaGenerateKeystream kw nw pt.length rounds))).length = pt.length ∧
      wordsToBytes pt.length
          (xorWordsJS (bytesToWords pt) (salsaGenerateKeystream kw nw pt.length rounds))
        = List.zipWith (fun x y => x ^^^ y) pt
            (((List.range ((pt.length + 63) / 64)).flatMap
              (fun i => (salsa20Block kw nw i rounds).flatMap wordToBytes)).take
              pt.length)) := by
  refine ⟨fun pt key nonce => ⟨chachaEncryptBytes_length pt key nonce,
    chachaEncryptBytes_spec pt key nonce⟩, fun pt kw nw rounds hpt => ⟨?_, ?_⟩⟩
  · exact wordsToBytes_length _ _
  · rw [salsaCipher_byteForm pt kw nw rounds hpt, salsaKeystreamBytes_spec]

/-- C6 witness: the keystream-loop characterization instantiated at a
1-byte plaintext for Salsa20 (empty key and nonce word lists, 20 rounds)
and at a 1-byte plaintext for ChaCha20 with zero key and nonce. -/
theorem C6_keystream_loop_witness :
    ((chachaEncryptBytes [7] (List.replicate 32 0) (List.replicate 12 0)).length = 1 ∧
      chachaEncryptBytes [7] (List.replicate 32 0) (List.replicate 12 0)
        = List.zipWith (fun a b => a ^^^ b) [7]
            (((List.range 1).flatMap
              (chacha20Block (List.replicate 32 0) (List.replicate 12 0))).take 1)) ∧
    ((wordsToBytes 1 (xorWordsJS (bytesToWords [7])
        (salsaGenerateKeystream [] [] 1 20))).length = 1 ∧
      wordsToBytes 1 (xorWordsJS (bytesToWords [7]) (salsaGenerateKeystream [] [] 1 20))
        = List.zipWith (fun x y => x ^^^ y) [7]
            (((List.range 1).flatMap
              (fun i => (salsa20Block [] [] i 20).flatMap wordToBytes)).take 1)) :=
  ⟨C6_keystream_loop.1 [7] (List.replicate 32 0) (List.replicate 12 0),
   C6_keystream_loop.2 [7] [] [] 20 (by decide)⟩

/-- C7 counterexample: a TEA encrypt call whose key is one byte short (15
bytes) but whose plaintext is empty fails with the missing-parameters
message, not with one reporting an invalid key length. -/
theorem C7_short_key_empty_plaintext_message :
    (teaEncrypt { plaintext := [], key := List.replicate 15 0 } []).success = false ∧
    (teaEncrypt { plaintext := [], key := List.replicate 15 0 } []).error
      = some "Plaintext and key are required" ∧
    (teaEncrypt { plaintext := [], key := List.replicate 15 0 } []).error
      ≠ some "Invalid TEA key. Must be exactly 16 bytes (128 bits)" := by
  refine ⟨by decide, by decide, by decide⟩

/-- C7 amended: an encrypt call whose key byte length is outside the
algorithm requirement returns a failure result reporting an invalid key
length, with no ciphertext (the cipher primitive is never reached),
provided the call passes the earlier presence checks: nonempty plaintext
and key for TEA, XTEA and Salsa20, and a present nonempty nonce for
Salsa20; ChaCha20 reports the invalid key length unconditionally. -/
theorem C7_invalid_key_length :
    (∀ pt key : List Nat, ∀ iv : Option (List Nat), ∀ freshIv : List Nat,
      ∀ mode variant : Option String,
      pt ≠ [] → key ≠ [] → ¬ key.length = 16 →
      teaEncrypt { plaintext := pt, key := key, iv := iv, mode := mode,
                   variant := variant } freshIv
        = { success := false,
            error := some "Invalid TEA key. Must be exactly 16 bytes (128 bits)" }) ∧
    (∀ pt key : List Nat, ∀ iv : Option (List Nat), ∀ freshIv : List Nat,
      ∀ mode variant : Option String,
      pt ≠ [] → key ≠ [] → ¬ key.length = 16 →
      xteaEncrypt { plaintext := pt, key := key, iv := iv, mode := mode,
                    variant := variant } freshIv
        = { success := false,
            error := some "Invalid XTEA key. Must be exactly 16 bytes (128 bits)" }) ∧
    (∀ pt key nonce : List Nat, ∀ variant : Option String,
      pt ≠ [] → key ≠ [] → nonce ≠ [] → ¬ (key.length = 16 ∨ key.length = 32) →
      salsaEncrypt { plaintext := pt, key := key, nonce := some nonce, variant := variant }
        = { success := false, error := some "Invalid Salsa20 key. Must be 16 or 32 bytes" }) ∧
    (∀ pt key : List Nat, ∀ nonce : Option (List Nat),
      ¬ key.length = 32 →
      chachaEncrypt { plaintext := pt, key := key, nonce := nonce }
        = { success := false,
            error := some "Invalid key length. Expected 32 bytes (64 hex characters)." }) := by
  refine ⟨?_, ?_, ?_, ?_⟩
  · intro pt key iv freshIv mode variant hpt hk hlen
    unfold teaEncrypt
    rw [if_neg (by simp [hpt, hk]), if_pos (by simpa using hlen)]
  · intro pt key iv freshIv mode variant hpt hk hlen
    unfold xteaEncrypt
    rw [if_neg (by simp [hpt, hk]), if_pos (by simpa using hlen)]
  · intro pt key nonce variant hpt hk hn hlen
    unfold salsaEncrypt
    simp only [Option.getD_some]
    rw [if_neg (by simp [hpt, hk]), if_neg hn, if_pos (by simpa using hlen)]
  · intro pt key nonce hlen
    unfold chachaEncrypt
    rw [if_pos (by simpa using hlen)]

/-- C7 witness: keys one byte shorter than required are rejected with the
invalid-key-length failure on all four engines. -/
theorem C7_invalid_key_length_witness :
    teaEncrypt { plaintext := [65], key := List.replicate 15 0, iv := none,
                 mode := none, variant := none } []
      = { success := false,
          error := some "Invalid TEA key. Must be exactly 16 bytes (128 bits)" } ∧
    xteaEncrypt { plaintext := [65], key := List.replicate 15 0, iv := none,
                  mode := none, variant := none } []
      = { success := false,
          error := some "Invalid XTEA key. Must be exactly 16 bytes (128 bits)" } ∧
    salsaEncrypt { plaintext := [65], key := List.replicate 15 0,
                   nonce := some (List.replicate 8 0), variant := none }
      = { success := false, error := some "Invalid Salsa20 key. Must be 16 or 32 bytes" } ∧
    chachaEncrypt { plaintext := [65], key := List.replicate 31 0,
                    nonce := some (List.replicate 12 0) }
      = { success := false,
          error := some "Invalid key length. Expected 32 bytes (64 hex characters)." } :=
  ⟨C7_invalid_key_length.1 [65] (List.replicate 15 0) none [] none none
      (by decide) (by decide) (by decide),
   C7_invalid_key_length.2.1 [65] (List.replicate 15 0) none [] none none
      (by decide) (by decide) (by decide),
   C7_invalid_key_length.2.2.1 [65] (List.replicate 15 0) (List.replicate 8 0) none
      (by decide) (by decide) (by decide) (by decide),
   C7_invalid_key_length.2.2.2 [65] (List.replicate 31 0) (some (List.replicate 12 0))
      (by decide)⟩

/-- C8: every public encrypt and decrypt operation of the four engines is a
total function into the structured CryptoOperation type: on every input it
returns a value whose error message is present whenever the success flag is
false, and whose payload is present whenever the success flag is true.  No
exception escapes to the caller (totality of the model reflects the
try/catch wrapper around each operation). -/
theorem C8_structured_results :
    (∀ (p : EncryptionParams) (freshIv : List Nat),
      ((teaEncrypt p freshIv).success = false → (teaEncrypt p freshIv).error.isSome) ∧
      ((teaEncrypt p freshIv).success = true → (teaEncrypt p freshIv).result.isSome)) ∧
    (∀ p : DecryptionParams,
      ((teaDecrypt p).success = false → (teaDecrypt p).error.isSome) ∧
      ((teaDecrypt p).success = true → (teaDecrypt p).result.isSome)) ∧
    (∀ (p : EncryptionParams) (freshIv : List Nat),
      ((xteaEncrypt p freshIv).success = false → (xteaEncrypt p freshIv).error.isSome) ∧
      ((xteaEncrypt p freshIv).success = true → (xteaEncrypt p freshIv).result.isSome)) ∧
    (∀ p : DecryptionParams,
      ((xteaDecrypt p).success = false → (xteaDecrypt p).error.isSome) ∧
      ((xteaDecrypt p).success = true → (xteaDecrypt p).result.isSome)) ∧
    (∀ p : EncryptionParams,
      ((salsaEncrypt p).success = false → (salsaEncrypt p).error.isSome) ∧
      ((salsaEncrypt p).success = true → (salsaEncrypt p).result.isSome)) ∧
    (∀ p : DecryptionParams,
      ((salsaDecrypt p).success = false → (salsaDecrypt p).error.isSome) ∧
      ((salsaDecrypt p).success = true → (salsaDecrypt p).result.isSome)) ∧
    (∀ p : EncryptionParams,
      ((chachaEncrypt p).success = false → (chachaEncrypt p).error.isSome) ∧
      ((chachaEncrypt p).success = true → (chachaEncrypt p).result.isSome)) ∧
    (∀ p : DecryptionParams,
      ((chachaDecrypt p).success = false → (chachaDecrypt p).error.isSome) ∧
      ((chachaDecrypt p).success = true → (chachaDecrypt p).result.isSome)) := by
  refine ⟨?_, ?_, ?_, ?_, ?_, ?_, ?_, ?_⟩
  · intro p freshIv
    refine ⟨?_, ?_⟩ <;> (unfold teaEncrypt; dsimp only; repeat' split) <;> simp
  · intro p
    refine ⟨?_, ?_⟩ <;> (unfold teaDecrypt; dsimp only; repeat' split) <;> simp
  · intro p freshIv
    refine ⟨?_, ?_⟩ <;> (unfold xteaEncrypt; dsimp only; repeat' split) <;> simp
  · intro p
    refine ⟨?_, ?_⟩ <;> (unfold xteaDecrypt; dsimp only; repeat' split) <;> simp
  · intro p
    refine ⟨?_, ?_⟩ <;> (unfold salsaEncrypt; dsimp only; repeat' split) <;> simp
  · intro p
    refine ⟨?_, ?_⟩ <;> (unfold salsaDecrypt; dsimp only; repeat' split) <;> simp
  · intro p
    refine ⟨?_, ?_⟩ <;> (unfold chachaEncrypt; repeat' split) <;> simp
  · intro p
    refine ⟨?_, ?_⟩ <;> (unfold chachaDecrypt; repeat' split) <;> simp

/-- C8 witness: the structured-result guarantees instantiated at the empty
encryption parameters (a failing call) and at a succeeding ChaCha20 call. -/
theorem C8_structured_results_witness :
    (teaEncrypt { plaintext := [], key := [] } []).error.isSome = true ∧
    (chachaEncrypt { plaintext := [65], key := List.replicate 32 0,
                     nonce := some (List.replicate 12 0) }).result.isSome = true :=
  ⟨(C8_structured_results.1 { plaintext := [], key := [] } []).1 (by decide),
   (C8_structured_results.2.2.2.2.2.2.1
      { plaintext := [65], key := List.replicate 32 0,
        nonce := some (List.replicate 12 0) }).2 (by decide)⟩

/-- C9: the registry register operation inserts under the identifier
declared in the engine metadata, in both the engines and the metadata
tables; re-registering under the same identifier simply overwrites (the
last registration wins, with no duplicate-detection error, since register
is total and lookup after register always returns the newest engine);
getEngine and getMetadata return none, not an error, on unknown
identifiers. -/
theorem C9_registry_semantics :
    (∀ (ε μ : Type) (st : CipherRegistry ε μ) (e : RegisteredEngine ε μ),
      (st.register e).getEngine e.mdId = some e ∧
      (st.register e).getMetadata e.mdId = some e.md) ∧
    (∀ (ε μ : Type) (st : CipherRegistry ε μ) (e1 e2 : RegisteredEngine ε μ),
      e1.mdId = e2.mdId →
      ((st.register e1).register e2).getEngine e2.mdId = some e2) ∧
    (∀ (ε μ : Type) (st : CipherRegistry ε μ) (id : String),
      (∀ pr ∈ st.engines, pr.1 ≠ id) → st.getEngine id = none) ∧
    (∀ (ε μ : Type) (st : CipherRegistry ε μ) (id : String),
      (∀ pr ∈ st.metadata, pr.1 ≠ id) → st.getMetadata id = none) := by
  refine ⟨?_, ?_, ?_, ?_⟩
  · intro ε μ st e
    exact ⟨mapGet_mapSet st.engines e.mdId e, mapGet_mapSet st.metadata e.mdId e.md⟩
  · intro ε μ st e1 e2 _
    exact mapGet_mapSet _ e2.mdId e2
  · intro ε μ st id h
    exact mapGet_none_of_not_mem st.engines id h
  · intro ε μ st id h
    exact mapGet_none_of_not_mem st.metadata id h

/-- C9 witness: registering twice under the identifier tea in an empty
registry yields the second engine on lookup, and lookups in the empty
registry return none. -/
theorem C9_registry_semantics_witness :
    ((CipherRegistry.register (CipherRegistry.register { engines := [], metadata := [] }
        { payload := (1 : Nat), mdId := "tea", md := (10 : Nat) })
        { payload := (2 : Nat), mdId := "tea", md := (20 : Nat) }).getEngine "tea"
      = some { payload := (2 : Nat), mdId := "tea", md := (20 : Nat) }) ∧
    (CipherRegistry.getEngine (ε := Nat) (μ := Nat) { engines := [], metadata := [] } "aes"
      = none) ∧
    (CipherRegistry.getMetadata (ε := Nat) (μ := Nat) { engines := [], metadata := [] } "aes"
      = none) :=
  ⟨C9_registry_semantics.2.1 Nat Nat { engines := [], metadata := [] }
      { payload := 1, mdId := "tea", md := 10 }
      { payload := 2, mdId := "tea", md := 20 } rfl,
   C9_registry_semantics.2.2.1 Nat Nat { engines := [], metadata := [] } "aes"
      (by simp),
   C9_registry_semantics.2.2.2 Nat Nat { engines := [], metadata := [] } "aes"
      (by simp)⟩

/-- C10: the TEA, XTEA and Salsa20 engines reject an empty plaintext with a
missing-parameters failure before any cipher code runs, whereas the
ChaCha20 engine accepts an empty plaintext (given a valid key and nonce)
and returns success with an empty ciphertext. -/
theorem C10_empty_plaintext :
    (∀ key : List Nat, ∀ iv nonce : Option (List Nat), ∀ mode variant : Option String,
      ∀ freshIv : List Nat,
      teaEncrypt { plaintext := [], key := key, iv := iv, nonce := nonce, mode := mode,
                   variant := variant } freshIv
        = { success := false, error := some "Plaintext and key are required" }) ∧
    (∀ key : List Nat, ∀ iv nonce : Option (List Nat), ∀ mode variant : Option String,
      ∀ freshIv : List Nat,
      xteaEncrypt { plaintext := [], key := key, iv := iv, nonce := nonce, mode := mode,
                    variant := variant } freshIv
        = { success := false, error := some "Plaintext and key are required" }) ∧
    (∀ key : List Nat, ∀ nonce : Option (List Nat), ∀ variant : Option String,
      salsaEncrypt { plaintext := [], key := key, nonce := nonce, variant := variant }
        = { success := false, error := some "Plaintext and key are required" }) ∧
    (∀ key nonce : List Nat, key.length = 32 → nonce.length = 12 →
      chachaEncrypt { plaintext := [], key := key, nonce := some nonce }
        = { success := true, result := some [],
            metadata := some { keyLength := some 32, nonceLength := some 12,
                               mode := some "Stream", variant := some "chacha20" } }) := by
  refine ⟨?_, ?_, ?_, ?_⟩
  · intro key iv nonce mode variant freshIv
    unfold teaEncrypt
    rw [if_pos (Or.inl rfl)]
  · intro key iv nonce mode variant freshIv
    unfold xteaEncrypt
    rw [if_pos (Or.inl rfl)]
  · intro key nonce variant
    unfold salsaEncrypt
    rw [if_pos (Or.inl rfl)]
  · intro key nonce hkey hnonce
    unfold chachaEncrypt
    rw [if_neg (by simp [hkey]), if_neg (by simp [hnonce])]
    simp [chachaEncryptBytes, chachaEncryptGo]

/-- C10 witness: empty plaintext rejected by TEA and accepted by ChaCha20
at concrete keys and nonces. -/
theorem C10_empty_plaintext_witness :
    teaEncrypt { plaintext := [], key := List.replicate 16 0, iv := none, nonce := none,
                 mode := none, variant := none } []
      = { success := false, error := some "Plaintext and key are required" } ∧
    chachaEncrypt { plaintext := [], key := List.replicate 32 0,
                    nonce := some (List.replicate 12 0) }
      = { success := true, result := some [],
          metadata := some { keyLength := some 32, nonceLength := some 12,
                             mode := some "Stream", variant := some "chacha20" } } :=
  ⟨C10_empty_plaintext.1 (List.replicate 16 0) none none none none [],
   C10_empty_plaintext.2.2.2 (List.replicate 32 0) (List.replicate 12 0)
      (by decide) (by decide)⟩

end CipherSandbox
